import Mathlib

/-!
# packetizer: TCP segment builder and pseudo-header checksum

A shallow embedding of `main.go` (package `packetizer`).

Conventions of the embedding:

* a Go `byte`/`uint8`, `uint16`, `uint32` value is a `Nat`; every place where the Go code
  narrows or wraps a value carries the matching `% 2 ^ w`; the ranges that the Go types
  guarantee for caller-supplied values are stated by the `WF` predicates;
* a Go `[]byte` is a `List Nat`, a Go `[4]byte` is an `Array4`;
* a Go `string` is a Lean `String`; the Go code only ever looks for ASCII characters, so
  scanning the characters of the text finds what scanning its UTF-8 bytes finds, and
  `len` is the number of UTF-8 bytes;
* a call that can stop with a run-time panic returns an `Option`, `none` being the panic;
* the functions of the Go standard library that the code calls (`binary.Write`,
  `strings.Split`, `strconv.Atoi`, `net.ParseIP`) are not part of the sources; their
  definitions here follow the library (64-bit `int`), restricted to the way they are called.
-/

namespace Packetizer

/-! ## Data model -/

/-- The Go struct `TcpHeader`: `Src, Dst : uint16`, `Seq, Ack : uint32`,
`Flags, Window, ChkSum, UPointer : uint16`. -/
structure TcpHeader where
  Src : Nat
  Dst : Nat
  Seq : Nat
  Ack : Nat
  Flags : Nat
  Window : Nat
  ChkSum : Nat
  UPointer : Nat
  deriving DecidableEq, Repr

/-- The ranges of the field types of `TcpHeader`. -/
def TcpHeader.WF (h : TcpHeader) : Prop :=
  h.Src < 2 ^ 16 ∧ h.Dst < 2 ^ 16 ∧ h.Seq < 2 ^ 32 ∧ h.Ack < 2 ^ 32 ∧
  h.Flags < 2 ^ 16 ∧ h.Window < 2 ^ 16 ∧ h.ChkSum < 2 ^ 16 ∧ h.UPointer < 2 ^ 16

instance (h : TcpHeader) : Decidable h.WF := by
  unfold TcpHeader.WF; infer_instance

/-- The Go struct `TcpOption`: `Kind, Length : uint8`, `Data : []byte`. -/
structure TcpOption where
  Kind : Nat
  Length : Nat
  Data : List Nat
  deriving DecidableEq, Repr

/-- The ranges of the field types of `TcpOption`. -/
def TcpOption.WF (o : TcpOption) : Prop :=
  o.Kind < 256 ∧ o.Length < 256 ∧ ∀ b ∈ o.Data, b < 256

instance (o : TcpOption) : Decidable o.WF := by
  unfold TcpOption.WF; infer_instance

/-- A Go `[4]byte`. -/
structure Array4 where
  b0 : Nat
  b1 : Nat
  b2 : Nat
  b3 : Nat
  deriving DecidableEq, Repr

/-- The four elements are bytes. -/
def Array4.WF (a : Array4) : Prop :=
  a.b0 < 256 ∧ a.b1 < 256 ∧ a.b2 < 256 ∧ a.b3 < 256

instance (a : Array4) : Decidable a.WF := by
  unfold Array4.WF; infer_instance

/-- The elements of a `[4]byte` in index order. -/
def Array4.toList (a : Array4) : List Nat := [a.b0, a.b1, a.b2, a.b3]

/-- The result pair `([]byte, error)` of a Go call that returned; `none` is `nil`. -/
structure Returned where
  bytes : Option (List Nat)
  err : Option String
  deriving DecidableEq, Repr

/-! ## `encoding/binary`: big-endian writes -/

/-- The bytes `binary.BigEndian.PutUint16` stores: `byte(v >> 8)`, `byte(v)`. -/
def putUint16 (v : Nat) : List Nat := [(v >>> 8) % 256, v % 256]

/-- The bytes `binary.BigEndian.PutUint32` stores:
`byte(v >> 24)`, `byte(v >> 16)`, `byte(v >> 8)`, `byte(v)`. -/
def putUint32 (v : Nat) : List Nat :=
  [(v >>> 24) % 256, (v >>> 16) % 256, (v >>> 8) % 256, v % 256]

/-- What `binary.Write(buff, binary.BigEndian, header)` appends: the fields of the struct
in declaration order, each big-endian. -/
def writeHeader (header : TcpHeader) : List Nat :=
  putUint16 header.Src ++ putUint16 header.Dst ++ putUint32 header.Seq ++
  putUint32 header.Ack ++ putUint16 header.Flags ++ putUint16 header.Window ++
  putUint16 header.ChkSum ++ putUint16 header.UPointer

/-- What the three writes of one loop iteration append for `options[i]`:
`Kind` (one byte), `Length` (one byte), then the bytes of `Data`. -/
def writeOption (o : TcpOption) : List Nat :=
  [o.Kind] ++ [o.Length] ++ o.Data

/-- The loop `for i := range options`: the options are written first to last. -/
def writeOptions : List TcpOption → List Nat
  | [] => []
  | o :: rest => writeOption o ++ writeOptions rest

/-- The buffer after one serialisation pass of `GeneratePacket`: header, options, then
`[6]byte{}`. -/
def writePass (header : TcpHeader) (options : List TcpOption) : List Nat :=
  writeHeader header ++ writeOptions options ++ [0, 0, 0, 0, 0, 0]

/-! ## `checkSum` -/

/-- The loop `for i := 0; i < len(d)-1; i += 2 { sum += uint32(uint16(d[i])<<8 | uint16(d[i+1])) }`
with `sum` a `uint32`; a final byte without a partner is not read. -/
def sumLoop : List Nat → Nat → Nat
  | a :: b :: rest, sum => sumLoop rest ((sum + ((a <<< 8) % 2 ^ 16 ||| b)) % 2 ^ 32)
  | _, sum => sum

/-- The two folding steps of `checkSum` on the `uint32` accumulator. -/
def fold (sum : Nat) : Nat :=
  let sum := ((sum >>> 16) + (sum &&& 0xffff)) % 2 ^ 32
  (sum + (sum >>> 16)) % 2 ^ 32

/-- Go `checkSum(data, src, dst)`. The length adjustment of `totalLength` only sets the
capacity of `d`; `d` holds the pseudo-header followed by `data`. The result is
`^uint16(sum)`, the complement being the exclusive or with `0xffff`. -/
def checkSum (data : List Nat) (src dst : Array4) : Nat :=
  let pseudoHeader := [src.b0, src.b1, src.b2, src.b3,
                       dst.b0, dst.b1, dst.b2, dst.b3,
                       0, 6, 0, data.length % 256]
  let d := pseudoHeader ++ data
  let sum := sumLoop d 0
  let sum := fold sum
  (sum % 2 ^ 16) ^^^ 0xffff

/-! ## `strings` and `strconv` -/

/-- Go `strings.Split(s, ".")` on the characters of `s`: the pieces between the dots, in
order; a text without a dot (the empty text too) gives one piece. -/
def splitDots : List Char → List (List Char)
  | [] => [[]]
  | c :: cs =>
    if c = '.' then [] :: splitDots cs
    else
      match splitDots cs with
      | [] => [[c]]
      | piece :: pieces => (c :: piece) :: pieces

/-- Go `len(s)` of a text given by its characters: the number of UTF-8 bytes. -/
def byteLen (s : List Char) : Nat := (s.map Char.utf8Size).sum

/-- An ASCII decimal digit. -/
def isDigit (c : Char) : Bool := decide (48 ≤ c.toNat ∧ c.toNat ≤ 57)

/-- The digit loop of the fast path of `strconv.Atoi`: `none` at the first byte that is not
a decimal digit (`ch -= '0'; if ch > 9`), else the accumulated `n*10 + int(ch)`. -/
def atoiFastLoop : List Char → Nat → Option Nat
  | [], n => some n
  | c :: cs, n => if isDigit c then atoiFastLoop cs (n * 10 + (c.toNat - 48)) else none

/-- The outcome of `strconv.ParseUint`: a value, with the kind of error if any. -/
inductive NumError where
  | noError
  | errSyntax
  | errRange
  deriving DecidableEq, Repr

/-- The loop of `strconv.ParseUint(s, 10, 64)` over the bytes of `s`, `n` being the
`uint64` accumulator. A byte that is not a decimal digit is a syntax error (a letter gives a
digit value of at least the base 10, which is the same error), with value 0; an overflow
of `n*10` (`n >= cutoff`, `cutoff = maxUint64/10 + 1`) or of `n + d` stops the loop at once
with `maxVal = 1<<64 - 1` and a range error. -/
def parseUintLoop : List Char → Nat → Nat × NumError
  | [], n => (n, .noError)
  | c :: cs, n =>
    if isDigit c then
      if n ≥ (2 ^ 64 - 1) / 10 + 1 then (2 ^ 64 - 1, .errRange)
      else
        let n := (n * 10) % 2 ^ 64
        let n1 := (n + (c.toNat - 48)) % 2 ^ 64
        if n1 < n ∨ n1 > 2 ^ 64 - 1 then (2 ^ 64 - 1, .errRange)
        else parseUintLoop cs n1
    else (0, .errSyntax)

/-- Go `strconv.ParseUint(s, 10, 64)`. -/
def parseUint (s : List Char) : Nat × NumError :=
  if s = [] then (0, .errSyntax) else parseUintLoop s 0

/-- The value returned by `strconv.ParseInt(s, 10, 0)` on a 64-bit platform (the error is
dropped by the caller): 0 on a syntax error, the nearest `int64` on a range error. -/
def parseInt (s : List Char) : Int :=
  match s with
  | [] => 0
  | c :: cs =>
    let neg := decide (c = '-')
    let s := if c = '+' ∨ c = '-' then cs else c :: cs
    let (un, err) := parseUint s
    if err = .errSyntax then 0
    else if !neg ∧ un ≥ 2 ^ 63 then 2 ^ 63 - 1
    else if neg ∧ un > 2 ^ 63 then -(2 ^ 63)
    else if neg then -(un : Int) else (un : Int)

/-- The value returned by Go `strconv.Atoi(s)` on a 64-bit platform, its error dropped as
in `b0, _ := strconv.Atoi(s[0])`. Texts of 1 to 18 bytes take the fast path (sign, then
digits only); the others go through `ParseInt(s, 10, 0)`. -/
def atoi (s : List Char) : Int :=
  if 0 < byteLen s ∧ byteLen s < 19 then
    match s with
    | [] => 0
    | c :: cs =>
      let digits := if c = '-' ∨ c = '+' then cs else c :: cs
      if digits = [] then 0
      else
        match atoiFastLoop digits 0 with
        | none => 0
        | some n => if c = '-' then -(n : Int) else (n : Int)
  else parseInt s

/-- The Go conversion `byte(b)` of an `int`: its low 8 bits. -/
def toByte (b : Int) : Nat := (b % 256).toNat

/-! ## Address codec: `ipstr2Bytes` -/

/-- Go `ipstr2Bytes(addr)`. `none` is the run-time panic (index out of range) of `s[1]`,
`s[2]` or `s[3]` when `strings.Split` gives fewer than four pieces. -/
def ipstr2Bytes (addr : String) : Option Array4 :=
  match splitDots addr.data with
  | s0 :: s1 :: s2 :: s3 :: _ =>
    some ⟨toByte (atoi s0), toByte (atoi s1), toByte (atoi s2), toByte (atoi s3)⟩
  | _ => none

/-! ## Address codec: `net.ParseIP` and `isValidIP` -/

/-- Modelled from the spec: the parser behind `net.ParseIP`, which is code of the Go
standard library and not of the sources; the spec says of the validator that the text
"parses as any valid IP address (v4 or v6 permitted by the validator)". This and the next
definitions follow the library parser (`net.ParseIP` is `netip.ParseAddr` with a zone
refused). `parseIPv4Fields` reads a dotted-decimal text: four fields of 1 to 3 digits, no
leading zero, each at most 255. `prev` is the byte before the current one (`none` at index
0); `val`, `pos`, `digLen` and `fields` are the variables of the library loop. -/
def parseIPv4Fields : List Char → Option Char → Nat → Nat → Nat → List Nat → Option (List Nat)
  | [], _, val, pos, _, fields => if pos < 3 then none else some (fields ++ [val % 256])
  | c :: rest, prev, val, pos, digLen, fields =>
    if isDigit c then
      if digLen = 1 ∧ val = 0 then none
      else
        let val := val * 10 + (c.toNat - 48)
        if val > 255 then none
        else parseIPv4Fields rest (some c) val pos (digLen + 1) fields
    else if c = '.' then
      if prev = none ∨ rest = [] ∨ prev = some '.' then none
      else if pos = 3 then none
      else parseIPv4Fields rest (some c) 0 (pos + 1) 0 (fields ++ [val % 256])
    else none

/-- Library `parseIPv4`: the four bytes of a dotted-decimal address. -/
def parseIPv4 (s : List Char) : Option (List Nat) := parseIPv4Fields s none 0 0 0 []

/-- The value of a hexadecimal digit. -/
def hexVal (c : Char) : Option Nat :=
  if 48 ≤ c.toNat ∧ c.toNat ≤ 57 then some (c.toNat - 48)
  else if 97 ≤ c.toNat ∧ c.toNat ≤ 102 then some (c.toNat - 97 + 10)
  else if 65 ≤ c.toNat ∧ c.toNat ≤ 70 then some (c.toNat - 65 + 10)
  else none

/-- The inner loop of library `parseIPv6` reading one group of hexadecimal digits: `none`
when the group has more than 4 digits or exceeds 16 bits, else the number `off` of digits
read, their value `acc` and the text left. -/
def scanHex : List Char → Nat → Nat → Option (Nat × Nat × List Char)
  | [], off, acc => some (off, acc, [])
  | c :: cs, off, acc =>
    match hexVal c with
    | none => some (off, acc, c :: cs)
    | some d =>
      let acc := ((acc <<< 4) % 2 ^ 32 + d) % 2 ^ 32
      if off > 3 then none
      else if acc > 65535 then none
      else scanHex cs (off + 1) acc

/-- The end of library `parseIPv6`, after its loop: the whole text must be used; an address
that is too short is completed with zero bytes at the ellipsis; a full address must not
have an ellipsis. `ip` holds the `i = ip.length` bytes parsed so far. -/
def finishIPv6 (s : List Char) (ip : List Nat) (ellipsis : Option Nat) : Option (List Nat) :=
  if s ≠ [] then none
  else if ip.length < 16 then
    match ellipsis with
    | none => none
    | some e => some (ip.take e ++ List.replicate (16 - ip.length) 0 ++ ip.drop e)
  else if ellipsis ≠ none then none
  else some ip

/-- The main loop `for i < 16` of library `parseIPv6`; `k` counts the 16-bit groups still
free, so that `i = 16 - 2 * k`, and the loop ends when `k = 0`. -/
def parseIPv6Loop : Nat → List Char → List Nat → Option Nat → Option (List Nat)
  | 0, s, ip, ellipsis => finishIPv6 s ip ellipsis
  | k + 1, s, ip, ellipsis =>
    let i := 16 - 2 * (k + 1)
    match scanHex s 0 0 with
    | none => none
    | some (off, acc, rest) =>
      if off = 0 then none
      else
        match rest with
        | [] => finishIPv6 [] (ip ++ [(acc >>> 8) % 256, acc % 256]) ellipsis
        | c :: r =>
          if c = '.' then
            if ellipsis = none ∧ i ≠ 12 then none
            else if i + 4 > 16 then none
            else
              match parseIPv4 s with
              | none => none
              | some fields => finishIPv6 [] (ip ++ fields) ellipsis
          else if c ≠ ':' then none
          else
            let ip := ip ++ [(acc >>> 8) % 256, acc % 256]
            match r with
            | [] => none
            | c2 :: r2 =>
              if c2 = ':' then
                if ellipsis ≠ none then none
                else if r2 = [] then finishIPv6 [] ip (some (i + 2))
                else parseIPv6Loop k r2 ip (some (i + 2))
              else parseIPv6Loop k (c2 :: r2) ip ellipsis

/-- Library `parseIPv6` as used by `net.ParseIP`: a text with a `%` either has an empty
zone (an error) or a zone (refused by `net.ParseIP`), so it gives `none`; a leading `::`
is the ellipsis at position 0. -/
def parseIPv6 (s : List Char) : Option (List Nat) :=
  if '%' ∈ s then none
  else
    match s with
    | ':' :: ':' :: rest =>
      if rest = [] then some (List.replicate 16 0) else parseIPv6Loop 8 rest [] (some 0)
    | _ => parseIPv6Loop 8 s [] none

/-- The scan of library `netip.ParseAddr`: the first `.`, `:` or `%` of the text selects
the IPv4 parser, the IPv6 parser or an error. `s` is the whole text, `t` what is left to
scan. An IPv4 address is returned in its 16-byte form. -/
def parseAddrScan (s : List Char) : List Char → Option (List Nat)
  | [] => none
  | c :: t =>
    if c = '.' then (parseIPv4 s).map (fun b => List.replicate 10 0 ++ [0xff, 0xff] ++ b)
    else if c = ':' then parseIPv6 s
    else if c = '%' then none
    else parseAddrScan s t

/-- Modelled from the spec: Go `net.ParseIP(s)`, absent from the sources, after the
library parser: the 16 bytes of an IPv4 (dotted-decimal) or IPv6 address, `none` being the
nil result for any other text. -/
def ParseIP (s : String) : Option (List Nat) := parseAddrScan s.data s.data

/-- Go `isValidIP(ip)`. -/
def isValidIP (ip : String) : Bool :=
  if ParseIP ip = none then false else true

/-! ## Segment builder: `GeneratePacket` and `GenerateSyn` -/

/-- Go `GeneratePacket(header, options, laddr, raddr)`. `none` is a run-time panic (raised
by `ipstr2Bytes`); `some r` is the returned pair. The errors of `binary.Write` are not
looked at by the Go code and the writes into a `bytes.Buffer` cannot fail. -/
def GeneratePacket (header : TcpHeader) (options : List TcpOption) (laddr raddr : String) :
    Option Returned :=
  if !isValidIP laddr || !isValidIP raddr then
    some ⟨none, some ("ip addresse(s) " ++ laddr ++ " or " ++ raddr ++ " are invalid")⟩
  else
    let data := writePass header options
    match ipstr2Bytes laddr, ipstr2Bytes raddr with
    | some src, some dst =>
      let checksum := checkSum data src dst
      let header := { header with ChkSum := checksum }
      some ⟨some (writePass header options), none⟩
    | _, _ => none

/-- Go `GenerateSyn(laddr, raddr, sport, dport)`; `seq` is the value drawn by
`rand.Uint32()`. The second option is `{Kind: 0}`, whose `Length` is 0 and `Data` nil. -/
def GenerateSyn (seq : Nat) (laddr raddr : String) (sport dport : Nat) : Option Returned :=
  let options : List TcpOption := [⟨2, 4, [0x05, 0xb4]⟩, ⟨0, 0, []⟩]
  let header : TcpHeader := ⟨sport, dport, seq, 0, 0x8002, 1024, 0, 0⟩
  GeneratePacket header options laddr raddr

/-! ## Vocabulary of the specification -/

/-- The decimal text `a.b.c.d` of an IPv4 address, each number written without leading
zeros. -/
def dottedQuad (a b c d : Nat) : String :=
  toString a ++ "." ++ toString b ++ "." ++ toString c ++ "." ++ toString d

/-- A valid dotted-decimal IPv4 address: four numbers of 0..255 in decimal, without leading
zeros, separated by dots. -/
def IsDottedQuad (s : String) : Prop :=
  ∃ a b c d : Nat, a < 256 ∧ b < 256 ∧ c < 256 ∧ d < 256 ∧ s = dottedQuad a b c d

/-- The 16-bit big-endian value stored at `out[i:i+2]`. -/
def be16At (out : List Nat) (i : Nat) : Nat := out.getD i 0 * 256 + out.getD (i + 1) 0

/-- The 32-bit big-endian value stored at `out[i:i+4]`. -/
def be32At (out : List Nat) (i : Nat) : Nat :=
  ((out.getD i 0 * 256 + out.getD (i + 1) 0) * 256 + out.getD (i + 2) 0) * 256
    + out.getD (i + 3) 0

/-- The segment `out` with bytes 16 and 17, the checksum field, set back to zero. -/
def zeroChkSum (out : List Nat) : List Nat := (out.set 16 0).set 17 0

/-- Reading a 20-byte TCP header back: the big-endian fields at offsets 0, 2, 4, 8, 12, 14,
16 and 18. -/
def decodeHeader (b : List Nat) : TcpHeader :=
  ⟨be16At b 0, be16At b 2, be32At b 4, be32At b 8, be16At b 12, be16At b 14, be16At b 16,
    be16At b 18⟩

/-- The encoding `enc(o)` of one option: its kind byte, its length byte, its payload. -/
def encOption (o : TcpOption) : List Nat := [o.Kind, o.Length] ++ o.Data

/-- The encodings of the options one after the other, in list order. -/
def encOptions (opts : List TcpOption) : List Nat := (opts.map encOption).flatten

/-- The 16-bit big-endian words of a buffer; a buffer of odd length is completed with a
zero byte, as the internet checksum prescribes. -/
def beWords : List Nat → List Nat
  | a :: b :: rest => (a * 256 + b) :: beWords rest
  | [a] => [a * 256]
  | [] => []

/-- Ones-complement addition of two 16-bit words: the carry out of bit 15 is added back in
(end-around carry). -/
def onesAdd (x y : Nat) : Nat := (x + y) % 65536 + (x + y) / 65536

/-- The ones-complement sum of a list of 16-bit words. -/
def onesSum (ws : List Nat) : Nat := ws.foldl onesAdd 0

/-- The reference internet checksum of a buffer: the 16-bit complement of the
ones-complement sum of its 16-bit big-endian words. -/
def referenceChecksum (buf : List Nat) : Nat := 65535 - onesSum (beWords buf)

/-- The Go slice expression `out[i:j]`. -/
def slice (out : List Nat) (i j : Nat) : List Nat := (out.drop i).take (j - i)

/-- The checksum computed the way `checkSum` does, but with the pseudo-header tail of the
TCP standard, `[0, 6, len(data) >> 8, len(data) & 0xff]`: the segment length on 16 bits. -/
def checkSumStd (data : List Nat) (src dst : Array4) : Nat :=
  let pseudoHeader := [src.b0, src.b1, src.b2, src.b3,
                       dst.b0, dst.b1, dst.b2, dst.b3,
                       0, 6, (data.length >>> 8) % 256, data.length % 256]
  let d := pseudoHeader ++ data
  let sum := sumLoop d 0
  let sum := fold sum
  (sum % 2 ^ 16) ^^^ 0xffff

/-- The value `y` of the first folding step, `(x >> 16) + (x & 0xffff)`. -/
def foldY (x : Nat) : Nat := (x >>> 16) + (x &&& 0xffff)

/-- The value `z` of the second folding step, `y + (y >> 16)`. -/
def foldZ (x : Nat) : Nat := foldY x + (foldY x >>> 16)

/-- The number written by the longest prefix of decimal digits of a text, continuing from
`n`, and the text left after that prefix. -/
def digitsVal : List Char → Nat → Nat × List Char
  | [], n => (n, [])
  | c :: cs, n => if isDigit c then digitsVal cs (n * 10 + (c.toNat - 48)) else (n, c :: cs)

/-- The byte that a segment of an address text gives, from its sign (`neg` for a leading
`-`) and its `body`, the segment without its sign: with `v` the number written by the
leading digits of `body`,
* leading digits beyond the `uint64` range give 255, or 0 after a `-`, whatever follows;
* otherwise a segment that is not a decimal number (no digit, or something after the
  digits) gives 0;
* a number beyond the `int64` range gives 255, or 0 when negative;
* a number in the `int64` range gives its low 8 bits (two's complement). -/
def segmentByteOf (neg : Bool) (body : List Char) : Nat :=
  let v := (digitsVal body 0).1
  let rest := (digitsVal body 0).2
  if v ≥ 2 ^ 64 then (if neg then 0 else 255)
  else if body = [] ∨ rest ≠ [] then 0
  else if neg then (if v > 2 ^ 63 then 0 else toByte (-(v : Int)))
  else if v ≥ 2 ^ 63 then 255 else v % 256

/-- The byte that one segment of an address text gives: `segmentByteOf` after taking one
leading `-` or `+` off as the sign. -/
def segmentByte (s : List Char) : Nat :=
  segmentByteOf (decide (s.head? = some '-'))
    (if s.head? = some '-' ∨ s.head? = some '+' then s.tail else s)

/-! ## Auxiliary definitions of the proofs -/

/-- The ten decimal digits. -/
def digitChars : List Char := ['0', '1', '2', '3', '4', '5', '6', '7', '8', '9']

/-- The digits-only part of the field loop of `parseIPv4Fields`: the value and the number
of digits after reading `cs`, `none` where the loop reports an error. -/
def octetRun : List Char → Nat → Nat → Option (Nat × Nat)
  | [], val, digLen => some (val, digLen)
  | c :: cs, val, digLen =>
    if isDigit c = true ∧ ¬(digLen = 1 ∧ val = 0) ∧ val * 10 + (c.toNat - 48) ≤ 255 then
      octetRun cs (val * 10 + (c.toNat - 48)) (digLen + 1)
    else none

/-- What the parsers need of the decimal text `cs` of the number `a`. -/
def octetText (cs : List Char) (a : Nat) : Bool :=
  decide (cs ≠ [] ∧ cs.length ≤ 3 ∧ cs.all isDigit = true ∧
    (octetRun cs 0 0).map Prod.fst = some a ∧ atoiFastLoop cs 0 = some a)

/-- Every element is a byte. -/
def AllBytes (l : List Nat) : Prop := ∀ b ∈ l, b < 256

instance (l : List Nat) : Decidable (AllBytes l) := by
  unfold AllBytes; infer_instance

/-- The sum, without wrap-around, of the 16-bit big-endian words of a byte sequence; a
final byte without a partner is left out. -/
def wordSum : List Nat → Nat
  | a :: b :: rest => (a * 256 + b) + wordSum rest
  | _ => 0

/-- The sum of the six words of the pseudo-header built by `checkSum` for a segment of
`n` bytes. -/
def pseudoSum (n : Nat) (src dst : Array4) : Nat :=
  (src.b0 * 256 + src.b1) + (src.b2 * 256 + src.b3) + (dst.b0 * 256 + dst.b1) +
    (dst.b2 * 256 + dst.b3) + 6 + n % 256

/-! ## Sample inputs -/

/-- A SYN header with sequence number 7, as `GenerateSyn` builds it for ports 12345 and 80. -/
def sampleHeader : TcpHeader := ⟨12345, 80, 7, 0, 0x8002, 1024, 0, 0⟩

/-- The option list of `GenerateSyn`: maximum segment size 1460, then kind 0. -/
def sampleOptions : List TcpOption := [⟨2, 4, [0x05, 0xb4]⟩, ⟨0, 0, []⟩]

/-- The 32 bytes `GeneratePacket` returns for `sampleHeader`, `sampleOptions` and the
addresses `10.0.0.1`, `10.0.0.2`; the checksum is `0x2f8c`. -/
def sampleOutput : List Nat :=
  [48, 57, 0, 80, 0, 0, 0, 7, 0, 0, 0, 0, 128, 2, 4, 0, 0x2f, 0x8c, 0, 0,
    2, 4, 5, 0xb4, 0, 0, 0, 0, 0, 0, 0, 0]

/-! ## Evaluation of the embedding on concrete inputs -/

theorem eval_ipstr2Bytes_dotted : ipstr2Bytes "10.0.0.1" = some ⟨10, 0, 0, 1⟩ := by decide

theorem eval_ipstr2Bytes_three_fields : ipstr2Bytes "10.0.0" = none := by decide

theorem eval_ipstr2Bytes_malformed : ipstr2Bytes "-1.256.x.99999999999999999999.7" = some ⟨255, 0, 0, 255⟩ := by decide

theorem eval_ipstr2Bytes_mapped : ipstr2Bytes "::ffff:1.2.3.4" = some ⟨0, 2, 3, 4⟩ := by decide

theorem eval_ParseIP_v4 : ParseIP "10.0.0.1" = some [0, 0, 0, 0, 0, 0, 0, 0, 0, 0, 255, 255, 10, 0, 0, 1] := by
  decide

theorem eval_ParseIP_loopback : ParseIP "::1" = some [0, 0, 0, 0, 0, 0, 0, 0, 0, 0, 0, 0, 0, 0, 0, 1] := by decide

theorem eval_ParseIP_ellipsis : ParseIP "2001:db8::ff00:42:8329"
    = some [0x20, 1, 0xd, 0xb8, 0, 0, 0, 0, 0, 0, 0xff, 0, 0, 0x42, 0x83, 0x29] := by decide

theorem eval_ParseIP_mapped : ParseIP "::ffff:1.2.3.4" = some [0, 0, 0, 0, 0, 0, 0, 0, 0, 0, 255, 255, 1, 2, 3, 4] := by
  decide

theorem eval_ParseIP_full : ParseIP "1:2:3:4:5:6:7:8" = some [0, 1, 0, 2, 0, 3, 0, 4, 0, 5, 0, 6, 0, 7, 0, 8] := by
  decide

theorem eval_ParseIP_nine_groups : ParseIP "1:2:3:4:5:6:7:8:9" = none := by decide

theorem eval_ParseIP_trailing_ellipsis : ParseIP "1:2:3:4:5:6:7::" = some [0, 1, 0, 2, 0, 3, 0, 4, 0, 5, 0, 6, 0, 7, 0, 0] := by
  decide

theorem eval_ParseIP_full_with_ellipsis : ParseIP "1:2:3:4:5:6:7:8::" = none := by decide

theorem eval_ParseIP_two_ellipses : ParseIP "1::2::3" = none := by decide

theorem eval_ParseIP_zone : ParseIP "fe80::1%eth0" = none := by decide

theorem eval_ParseIP_rejected : ParseIP "01.2.3.4" = none ∧ ParseIP "1.2.3.4.5" = none ∧ ParseIP "1..3.4" = none
    ∧ ParseIP "1.2.3." = none ∧ ParseIP ".1.2.3" = none ∧ ParseIP "256.1.1.1" = none
    ∧ ParseIP "12345::" = none ∧ ParseIP "1:2" = none ∧ ParseIP ":1" = none
    ∧ ParseIP "1:" = none ∧ ParseIP "1.2.3.4::" = none ∧ ParseIP "1:2:3:4:5:6:1.2.3.4" ≠ none
    ∧ ParseIP "1:2:3:4:5:1.2.3.4" = none := by decide

theorem eval_checkSum_empty : checkSum [] ⟨0, 0, 0, 0⟩ ⟨0, 0, 0, 0⟩ = 0xfff9 := by decide

theorem eval_writePass : writePass ⟨1, 2, 3, 4, 5, 6, 7, 8⟩ [⟨2, 4, [5, 0xb4]⟩, ⟨0, 0, []⟩]
    = [0, 1, 0, 2, 0, 0, 0, 3, 0, 0, 0, 4, 0, 5, 0, 6, 0, 7, 0, 8, 2, 4, 5, 0xb4, 0, 0,
       0, 0, 0, 0, 0, 0] := by decide

theorem eval_GeneratePacket : GeneratePacket ⟨12345, 80, 7, 0, 0x8002, 1024, 0, 0⟩ [⟨2, 4, [5, 0xb4]⟩, ⟨0, 0, []⟩]
    "10.0.0.1" "10.0.0.2" = some ⟨some [48, 57, 0, 80, 0, 0, 0, 7, 0, 0, 0, 0, 128, 2, 4, 0,
      0x2f, 0x8c, 0, 0, 2, 4, 5, 0xb4, 0, 0, 0, 0, 0, 0, 0, 0], none⟩ := by decide

theorem eval_dottedQuad : dottedQuad 10 0 0 1 = "10.0.0.1" := by decide

/-! ## Decimal texts and the address codec -/

theorem mem_digitChars_of_isDigit {c : Char} (h : isDigit c = true) : c ∈ digitChars := by
  have hc := Char.ofNat_toNat c
  simp only [isDigit, decide_eq_true_eq] at h
  obtain ⟨h1, h2⟩ := h
  generalize c.toNat = n at hc h1 h2
  subst hc
  interval_cases n <;> decide

theorem digit_facts {c : Char} (h : isDigit c = true) :
    c ≠ '.' ∧ c ≠ ':' ∧ c ≠ '%' ∧ c ≠ '-' ∧ c ≠ '+' ∧ c.utf8Size = 1 := by
  have hall : ∀ x ∈ digitChars,
      x ≠ '.' ∧ x ≠ ':' ∧ x ≠ '%' ∧ x ≠ '-' ∧ x ≠ '+' ∧ x.utf8Size = 1 := by decide
  exact hall c (mem_digitChars_of_isDigit h)

set_option maxRecDepth 100000 in
theorem octetText_toDigits : ∀ a, a < 256 → octetText (Nat.toDigits 10 a) a = true := by
  decide

theorem toString_data (a : Nat) : (toString a).data = Nat.toDigits 10 a := rfl

theorem dottedQuad_data (a b c d : Nat) :
    (dottedQuad a b c d).data =
      Nat.toDigits 10 a ++ '.' :: (Nat.toDigits 10 b ++ '.' :: (Nat.toDigits 10 c ++
        '.' :: Nat.toDigits 10 d)) := by
  simp [dottedQuad, String.data_append, toString_data]

theorem octetText_iff {cs : List Char} {a : Nat} (h : octetText cs a = true) :
    cs ≠ [] ∧ cs.length ≤ 3 ∧ (∀ c ∈ cs, isDigit c = true) ∧
      (octetRun cs 0 0).map Prod.fst = some a ∧ atoiFastLoop cs 0 = some a := by
  simp only [octetText, decide_eq_true_eq, List.all_eq_true] at h
  exact h

theorem splitDots_ne_nil (cs : List Char) : splitDots cs ≠ [] := by
  induction cs with
  | nil => simp [splitDots]
  | cons c cs ih =>
    unfold splitDots
    split
    · simp
    · split <;> simp

theorem splitDots_no_dot {cs : List Char} (h : ∀ c ∈ cs, c ≠ '.') : splitDots cs = [cs] := by
  induction cs with
  | nil => simp [splitDots]
  | cons c cs ih =>
    have hc : c ≠ '.' := h c (List.mem_cons_self _ _)
    have ih := ih (fun x hx => h x (List.mem_cons_of_mem _ hx))
    simp [splitDots, hc, ih]

theorem splitDots_append_dot {cs : List Char} (rest : List Char) (h : ∀ c ∈ cs, c ≠ '.') :
    splitDots (cs ++ '.' :: rest) = cs :: splitDots rest := by
  induction cs with
  | nil => simp [splitDots]
  | cons c cs ih =>
    have hc : c ≠ '.' := h c (List.mem_cons_self _ _)
    have ih := ih (fun x hx => h x (List.mem_cons_of_mem _ hx))
    simp [splitDots, hc, ih]

theorem byteLen_digits {cs : List Char} (h : ∀ c ∈ cs, isDigit c = true) :
    byteLen cs = cs.length := by
  induction cs with
  | nil => simp [byteLen]
  | cons c cs ih =>
    have hc := (digit_facts (h c (List.mem_cons_self _ _))).2.2.2.2.2
    have ih := ih (fun x hx => h x (List.mem_cons_of_mem _ hx))
    simp only [byteLen, List.map_cons, List.sum_cons, List.length_cons] at ih ⊢
    omega

theorem atoi_octetText {cs : List Char} {a : Nat} (h : octetText cs a = true) :
    atoi cs = (a : Int) := by
  obtain ⟨hne, hlen, hdig, -, hfast⟩ := octetText_iff h
  have hbl := byteLen_digits hdig
  cases cs with
  | nil => exact absurd rfl hne
  | cons c cs =>
    have hc := digit_facts (hdig c (List.mem_cons_self _ _))
    have h1 : 0 < byteLen (c :: cs) ∧ byteLen (c :: cs) < 19 := by
      rw [hbl]; simp only [List.length_cons] at hlen ⊢; omega
    simp [atoi, h1, hc.2.2.2.1, hc.2.2.2.2.1, hfast]

theorem toByte_natCast {a : Nat} (h : a < 256) : toByte (a : Int) = a := by
  unfold toByte
  omega

theorem digits_no_dot {cs : List Char} (h : ∀ c ∈ cs, isDigit c = true) :
    ∀ c ∈ cs, c ≠ '.' :=
  fun c hc => (digit_facts (h c hc)).1

theorem ipstr2Bytes_dottedQuad {a b c d : Nat} (ha : a < 256) (hb : b < 256) (hc : c < 256)
    (hd : d < 256) : ipstr2Bytes (dottedQuad a b c d) = some ⟨a, b, c, d⟩ := by
  have ta := octetText_toDigits a ha
  have tb := octetText_toDigits b hb
  have tc := octetText_toDigits c hc
  have td := octetText_toDigits d hd
  have da := digits_no_dot (octetText_iff ta).2.2.1
  have db := digits_no_dot (octetText_iff tb).2.2.1
  have dc := digits_no_dot (octetText_iff tc).2.2.1
  have dd := digits_no_dot (octetText_iff td).2.2.1
  unfold ipstr2Bytes
  rw [dottedQuad_data, splitDots_append_dot _ da, splitDots_append_dot _ db,
    splitDots_append_dot _ dc, splitDots_no_dot dd]
  simp only [atoi_octetText ta, atoi_octetText tb, atoi_octetText tc, atoi_octetText td,
    toByte_natCast ha, toByte_natCast hb, toByte_natCast hc, toByte_natCast hd]

theorem parseIPv4Fields_digits {cs : List Char} :
    ∀ {val dl v n : Nat}, cs ≠ [] → octetRun cs val dl = some (v, n) →
      ∃ p : Char, isDigit p = true ∧ 0 < n ∧ ∀ rest prev pos fields,
        parseIPv4Fields (cs ++ rest) prev val pos dl fields
          = parseIPv4Fields rest (some p) v pos n fields := by
  induction cs with
  | nil => intro val dl v n h; exact absurd rfl h
  | cons c cs ih =>
    intro val dl v n _ hrun
    unfold octetRun at hrun
    split at hrun
    · rename_i hcond
      obtain ⟨hdig, hlead, hval⟩ := hcond
      by_cases hcs : cs = []
      · subst hcs
        simp only [octetRun, Option.some.injEq, Prod.mk.injEq] at hrun
        obtain ⟨rfl, rfl⟩ := hrun
        refine ⟨c, hdig, Nat.succ_pos _, ?_⟩
        intro rest prev pos fields
        have hv : ¬ (val * 10 + (c.toNat - 48) > 255) := by omega
        simp [parseIPv4Fields, hdig, hlead, hv]
      · obtain ⟨p, hp, hn, hstep⟩ := ih hcs hrun
        refine ⟨p, hp, hn, ?_⟩
        intro rest prev pos fields
        have hv : ¬ (val * 10 + (c.toNat - 48) > 255) := by omega
        rw [← hstep rest (some c) pos fields]
        simp [parseIPv4Fields, hdig, hlead, hv]
    · exact absurd hrun (by simp)

theorem octetRun_of_octetText {cs : List Char} {a : Nat} (h : octetText cs a = true) :
    ∃ n, octetRun cs 0 0 = some (a, n) := by
  obtain ⟨-, -, -, hrun, -⟩ := octetText_iff h
  cases hr : octetRun cs 0 0 with
  | none => simp [hr] at hrun
  | some vn =>
    obtain ⟨v, n⟩ := vn
    simp only [hr, Option.map_some', Option.some.injEq] at hrun
    exact ⟨n, by rw [← hrun]⟩

/-- One field followed by a dot, in the loop of `parseIPv4Fields`. -/
theorem parseIPv4Fields_field_dot {cs : List Char} {a : Nat} (h : octetText cs a = true)
    (ha : a < 256) (c : Char) (rest : List Char) (prev : Option Char) {pos : Nat}
    (hpos : pos < 3) (fields : List Nat) :
    parseIPv4Fields (cs ++ '.' :: c :: rest) prev 0 pos 0 fields
      = parseIPv4Fields (c :: rest) (some '.') 0 (pos + 1) 0 (fields ++ [a]) := by
  obtain ⟨n, hrun⟩ := octetRun_of_octetText h
  obtain ⟨p, hp, -, hstep⟩ := parseIPv4Fields_digits (octetText_iff h).1 hrun
  rw [hstep]
  have hp1 : p ≠ '.' := (digit_facts hp).1
  have hpos3 : pos ≠ 3 := by omega
  have hmod : a % 256 = a := Nat.mod_eq_of_lt ha
  have hnd : isDigit '.' = false := by decide
  rw [parseIPv4Fields]
  simp [hnd, hp1, hpos3, hmod]

/-- The last field, in the loop of `parseIPv4Fields`. -/
theorem parseIPv4Fields_last {cs : List Char} {a : Nat} (h : octetText cs a = true)
    (ha : a < 256) (prev : Option Char) (fields : List Nat) :
    parseIPv4Fields cs prev 0 3 0 fields = some (fields ++ [a]) := by
  obtain ⟨n, hrun⟩ := octetRun_of_octetText h
  obtain ⟨p, -, -, hstep⟩ := parseIPv4Fields_digits (octetText_iff h).1 hrun
  have := hstep [] prev 3 fields
  rw [List.append_nil] at this
  rw [this]
  simp [parseIPv4Fields, Nat.mod_eq_of_lt ha]

theorem parseIPv4Fields_field_dot_append {cs : List Char} {a : Nat}
    (h : octetText cs a = true) (ha : a < 256) {next : List Char} (hnext : next ≠ [])
    (prev : Option Char) {pos : Nat} (hpos : pos < 3) (fields : List Nat) :
    parseIPv4Fields (cs ++ '.' :: next) prev 0 pos 0 fields
      = parseIPv4Fields next (some '.') 0 (pos + 1) 0 (fields ++ [a]) := by
  obtain ⟨c, rest, rfl⟩ := List.exists_cons_of_ne_nil hnext
  exact parseIPv4Fields_field_dot h ha c rest prev hpos fields

theorem parseIPv4_dottedQuad {a b c d : Nat} (ha : a < 256) (hb : b < 256) (hc : c < 256)
    (hd : d < 256) : parseIPv4 (dottedQuad a b c d).data = some [a, b, c, d] := by
  have ta := octetText_toDigits a ha
  have tb := octetText_toDigits b hb
  have tc := octetText_toDigits c hc
  have td := octetText_toDigits d hd
  have nb := (octetText_iff tb).1
  have nc := (octetText_iff tc).1
  have nd := (octetText_iff td).1
  unfold parseIPv4
  rw [dottedQuad_data,
    parseIPv4Fields_field_dot_append ta ha (by simp [nb]) none (by decide) [],
    parseIPv4Fields_field_dot_append tb hb (by simp [nc]) _ (by decide) _,
    parseIPv4Fields_field_dot_append tc hc nd _ (by decide) _,
    parseIPv4Fields_last td hd]
  rfl

theorem parseAddrScan_digits_dot (s : List Char) {cs : List Char}
    (h : ∀ c ∈ cs, isDigit c = true) (rest : List Char) :
    parseAddrScan s (cs ++ '.' :: rest)
      = (parseIPv4 s).map (fun b => List.replicate 10 0 ++ [0xff, 0xff] ++ b) := by
  induction cs with
  | nil => simp [parseAddrScan]
  | cons c cs ih =>
    have hc := digit_facts (h c (List.mem_cons_self _ _))
    have ih := ih (fun x hx => h x (List.mem_cons_of_mem _ hx))
    rw [List.cons_append, parseAddrScan]
    simp only [hc.1, hc.2.1, hc.2.2.1, if_false]
    exact ih

theorem isValidIP_dottedQuad {a b c d : Nat} (ha : a < 256) (hb : b < 256) (hc : c < 256)
    (hd : d < 256) : isValidIP (dottedQuad a b c d) = true := by
  have ta := octetText_toDigits a ha
  have hscan := parseAddrScan_digits_dot (dottedQuad a b c d).data (octetText_iff ta).2.2.1
    (Nat.toDigits 10 b ++ '.' :: (Nat.toDigits 10 c ++ '.' :: Nat.toDigits 10 d))
  rw [← dottedQuad_data, parseIPv4_dottedQuad ha hb hc hd] at hscan
  simp [isValidIP, ParseIP, hscan]

/-! ## `GeneratePacket` on valid addresses -/

theorem GeneratePacket_ok (header : TcpHeader) (options : List TcpOption) {laddr raddr : String}
    {src dst : Array4} (hl : isValidIP laddr = true) (hr : isValidIP raddr = true)
    (hs : ipstr2Bytes laddr = some src) (hd : ipstr2Bytes raddr = some dst) :
    GeneratePacket header options laddr raddr
      = some ⟨some (writePass
          { header with ChkSum := checkSum (writePass header options) src dst } options),
          none⟩ := by
  simp [GeneratePacket, hl, hr, hs, hd]

theorem ipstr2Bytes_WF {addr : String} {a : Array4} (h : ipstr2Bytes addr = some a) : a.WF := by
  have hb : ∀ z : Int, toByte z < 256 := by
    intro z
    unfold toByte
    omega
  unfold ipstr2Bytes at h
  split at h
  · simp only [Option.some.injEq] at h
    subst h
    exact ⟨hb _, hb _, hb _, hb _⟩
  · exact absurd h (by simp)

/-- On valid dotted-decimal addresses `GeneratePacket` returns the second serialisation
pass, whose header carries the checksum of the first pass. -/
theorem GeneratePacket_dotted (h : TcpHeader) (opts : List TcpOption) {l r : String}
    (hl : IsDottedQuad l) (hr : IsDottedQuad r) :
    ∃ src dst, src.WF ∧ dst.WF ∧ ipstr2Bytes l = some src ∧ ipstr2Bytes r = some dst ∧
      GeneratePacket h opts l r = some ⟨some (writePass
        { h with ChkSum := checkSum (writePass h opts) src dst } opts), none⟩ := by
  obtain ⟨a, b, c, d, ha, hb, hc, hd, rfl⟩ := hl
  obtain ⟨a2, b2, c2, d2, ha2, hb2, hc2, hd2, rfl⟩ := hr
  have hs := ipstr2Bytes_dottedQuad ha hb hc hd
  have ht := ipstr2Bytes_dottedQuad ha2 hb2 hc2 hd2
  exact ⟨_, _, ipstr2Bytes_WF hs, ipstr2Bytes_WF ht, hs, ht,
    GeneratePacket_ok h opts (isValidIP_dottedQuad ha hb hc hd)
      (isValidIP_dottedQuad ha2 hb2 hc2 hd2) hs ht⟩

/-- When `GeneratePacket` returns bytes, both addresses were converted and the bytes are
the second serialisation pass, whose header carries the checksum of the first pass. -/
theorem GeneratePacket_returns {h : TcpHeader} {opts : List TcpOption} {l r : String}
    {out : List Nat} (hgp : GeneratePacket h opts l r = some ⟨some out, none⟩) :
    ∃ src dst, src.WF ∧ dst.WF ∧ ipstr2Bytes l = some src ∧ ipstr2Bytes r = some dst ∧
      out = writePass { h with ChkSum := checkSum (writePass h opts) src dst } opts := by
  unfold GeneratePacket at hgp
  split at hgp
  · simp at hgp
  · cases hs : ipstr2Bytes l with
    | none => simp [hs] at hgp
    | some src =>
      cases ht : ipstr2Bytes r with
      | none => simp [hs, ht] at hgp
      | some dst =>
        simp only [hs, ht, Option.some.injEq, Returned.mk.injEq, and_true] at hgp
        exact ⟨src, dst, ipstr2Bytes_WF hs, ipstr2Bytes_WF ht, rfl, rfl, hgp.symm⟩

/-- On valid dotted-decimal addresses `GeneratePacket` returns bytes. -/
theorem GeneratePacket_dotted_returns (h : TcpHeader) (opts : List TcpOption) {l r : String}
    (hl : IsDottedQuad l) (hr : IsDottedQuad r) :
    ∃ out, GeneratePacket h opts l r = some ⟨some out, none⟩ := by
  obtain ⟨src, dst, -, -, -, -, hgp⟩ := GeneratePacket_dotted h opts hl hr
  exact ⟨_, hgp⟩

theorem isDottedQuad_10_0_0_1 : IsDottedQuad "10.0.0.1" :=
  ⟨10, 0, 0, 1, by decide, by decide, by decide, by decide, by decide⟩

theorem isDottedQuad_10_0_0_2 : IsDottedQuad "10.0.0.2" :=
  ⟨10, 0, 0, 2, by decide, by decide, by decide, by decide, by decide⟩

/-! ## Byte ranges and lengths of the serialisation -/

theorem AllBytes_append {a b : List Nat} (ha : AllBytes a) (hb : AllBytes b) :
    AllBytes (a ++ b) := by
  intro x hx
  rcases List.mem_append.mp hx with h | h
  · exact ha x h
  · exact hb x h

theorem writeHeader_length (h : TcpHeader) : (writeHeader h).length = 20 := by
  simp [writeHeader, putUint16, putUint32]

theorem AllBytes_writeHeader (h : TcpHeader) : AllBytes (writeHeader h) := by
  intro x hx
  simp only [writeHeader, putUint16, putUint32, List.mem_append, List.mem_cons,
    List.mem_singleton, List.not_mem_nil, or_false] at hx
  have h256 : ∀ n : Nat, n % 256 < 256 := fun n => Nat.mod_lt _ (by norm_num)
  rcases hx with (((((((h1 | h1) | (h1 | h1)) | (h1 | h1 | h1 | h1)) | (h1 | h1 | h1 | h1)) |
    (h1 | h1)) | (h1 | h1)) | (h1 | h1)) | (h1 | h1) <;> (rw [h1]; exact h256 _)

theorem AllBytes_writeOptions {opts : List TcpOption} (h : ∀ o ∈ opts, o.WF) :
    AllBytes (writeOptions opts) := by
  induction opts with
  | nil => intro x hx; simp [writeOptions] at hx
  | cons o rest ih =>
    have ho : o.WF := h o (List.mem_cons_self _ _)
    have ih := ih (fun x hx => h x (List.mem_cons_of_mem _ hx))
    unfold writeOptions
    refine AllBytes_append ?_ ih
    intro x hx
    simp only [writeOption, List.mem_append, List.mem_singleton] at hx
    rcases hx with (rfl | rfl) | hx
    · exact ho.1
    · exact ho.2.1
    · exact ho.2.2 x hx

theorem AllBytes_writePass (h : TcpHeader) {opts : List TcpOption} (ho : ∀ o ∈ opts, o.WF) :
    AllBytes (writePass h opts) := by
  unfold writePass
  refine AllBytes_append (AllBytes_append (AllBytes_writeHeader h) (AllBytes_writeOptions ho)) ?_
  intro x hx
  simp only [List.mem_cons, List.mem_singleton, List.not_mem_nil, or_false, or_self] at hx
  omega

theorem writePass_length (h : TcpHeader) (opts : List TcpOption) :
    (writePass h opts).length = 20 + (writeOptions opts).length + 6 := by
  simp only [writePass, List.length_append, writeHeader_length, List.length_cons,
    List.length_nil]

theorem take20_writePass (h : TcpHeader) (opts : List TcpOption) :
    (writePass h opts).take 20 = writeHeader h := by
  unfold writePass
  rw [List.append_assoc, List.take_left' (writeHeader_length h)]

theorem drop20_writePass (h : TcpHeader) (opts : List TcpOption) :
    (writePass h opts).drop 20 = writeOptions opts ++ [0, 0, 0, 0, 0, 0] := by
  unfold writePass
  rw [List.append_assoc, List.drop_left' (writeHeader_length h)]

theorem writeHeader_layout (h : TcpHeader) (hwf : h.WF) :
    writeHeader h =
      [h.Src / 256, h.Src % 256, h.Dst / 256, h.Dst % 256,
        h.Seq / 2 ^ 24, h.Seq / 2 ^ 16 % 256, h.Seq / 2 ^ 8 % 256, h.Seq % 256,
        h.Ack / 2 ^ 24, h.Ack / 2 ^ 16 % 256, h.Ack / 2 ^ 8 % 256, h.Ack % 256,
        h.Flags / 256, h.Flags % 256, h.Window / 256, h.Window % 256,
        h.ChkSum / 256, h.ChkSum % 256, h.UPointer / 256, h.UPointer % 256] := by
  obtain ⟨h1, h2, h3, h4, h5, h6, h7, h8⟩ := hwf
  simp only [writeHeader, putUint16, putUint32, Nat.shiftRight_eq_div_pow, List.cons_append,
    List.nil_append, List.cons.injEq, and_true, true_and]
  repeat' apply And.intro
  all_goals omega

theorem decodeHeader_writeHeader (h : TcpHeader) (hwf : h.WF) :
    decodeHeader (writeHeader h) = h := by
  rw [writeHeader_layout h hwf]
  obtain ⟨h1, h2, h3, h4, h5, h6, h7, h8⟩ := hwf
  obtain ⟨a1, a2, a3, a4, a5, a6, a7, a8⟩ := h
  simp only [decodeHeader, be16At, be32At, List.getD_cons_succ, List.getD_cons_zero,
    TcpHeader.mk.injEq] at *
  refine ⟨?_, ?_, ?_, ?_, ?_, ?_, ?_, ?_⟩ <;> omega

theorem writeOptions_eq_encOptions (opts : List TcpOption) :
    writeOptions opts = encOptions opts := by
  induction opts with
  | nil => rfl
  | cons o rest ih =>
    simp only [writeOptions, encOptions, List.map_cons, List.flatten_cons, writeOption,
      encOption] at ih ⊢
    rw [ih]
    rfl

theorem length_encOptions (opts : List TcpOption) :
    (encOptions opts).length = (opts.map (fun o => 2 + o.Data.length)).sum := by
  induction opts with
  | nil => rfl
  | cons o rest ih =>
    have ih2 : ((rest.map encOption).flatten).length
        = (rest.map (fun o => 2 + o.Data.length)).sum := ih
    simp only [encOptions, List.map_cons, List.flatten_cons, List.length_append, List.sum_cons,
      encOption, List.length_cons, List.length_nil, ih2]

theorem zeroChkSum_writePass (h : TcpHeader) (opts : List TcpOption) (c : Nat)
    (hck : h.ChkSum = 0) :
    zeroChkSum (writePass { h with ChkSum := c } opts) = writePass h opts := by
  simp only [zeroChkSum, writePass, writeHeader, putUint16, putUint32, List.cons_append,
    List.nil_append, List.set_cons_succ, List.set_cons_zero, hck, Nat.zero_shiftRight,
    Nat.zero_mod]

theorem be16At_writePass_chk (h : TcpHeader) (opts : List TcpOption) :
    be16At (writePass h opts) 16 = (h.ChkSum >>> 8) % 256 * 256 + h.ChkSum % 256 := by
  simp [be16At, writePass, writeHeader, putUint16, putUint32]

/-! ## Arithmetic of the checksum -/

theorem word_eq {a b : Nat} (ha : a < 256) (hb : b < 256) :
    ((a <<< 8) % 2 ^ 16 ||| b) = a * 256 + b := by
  have h1 : a <<< 8 = 2 ^ 8 * a := by rw [Nat.shiftLeft_eq, Nat.mul_comm]
  have h2 : (2 ^ 8 * a) % 2 ^ 16 = 2 ^ 8 * a := Nat.mod_eq_of_lt (by omega)
  rw [h1, h2, ← Nat.mul_add_lt_is_or (by omega) a]
  omega

theorem sumLoop_eq (d : List Nat) (acc : Nat) (hd : AllBytes d) (hacc : acc < 2 ^ 32) :
    sumLoop d acc = (acc + wordSum d) % 2 ^ 32 := by
  induction d, acc using sumLoop.induct with
  | case1 a b rest sum ih =>
    have ha : a < 256 := hd a (by simp)
    have hb : b < 256 := hd b (by simp)
    have hrest : AllBytes rest := fun x hx => hd x (by simp [hx])
    rw [sumLoop, ih hrest (Nat.mod_lt _ (by norm_num)), word_eq ha hb, wordSum]
    omega
  | case2 d sum hne =>
    have h1 : sumLoop d sum = sum := by
      unfold sumLoop
      split
      · exact absurd rfl (hne _ _ _)
      · rfl
    have h2 : wordSum d = 0 := by
      unfold wordSum
      split
      · exact absurd rfl (hne _ _ _)
      · rfl
    rw [h1, h2, Nat.add_zero, Nat.mod_eq_of_lt hacc]

theorem xor_ffff {x : Nat} (h : x < 2 ^ 16) : x ^^^ 0xffff = 65535 - x := by
  apply Nat.eq_of_testBit_eq
  intro i
  have h1 : 65535 - x = 2 ^ 16 - (x + 1) := by omega
  have h2 : (0xffff : Nat) = 2 ^ 16 - 1 := by norm_num
  rw [h1, Nat.testBit_two_pow_sub_succ h, Nat.testBit_xor, h2, Nat.testBit_two_pow_sub_one]
  by_cases hi : i < 16
  · simp [hi]
  · have hx : x.testBit i = false :=
      Nat.testBit_lt_two_pow (lt_of_lt_of_le h (Nat.pow_le_pow_right (by norm_num) (by omega)))
    simp [hi, hx]

/-- The low 16 bits of the folded accumulator, without bit operations. -/
theorem fold_low (x : Nat) (hx : x < 2 ^ 32) :
    fold x % 2 ^ 16 = ((x / 65536 + x % 65536) + (x / 65536 + x % 65536) / 65536) % 65536 := by
  have _ := hx
  have h1 : x &&& 0xffff = x % 2 ^ 16 := Nat.and_pow_two_sub_one_eq_mod x 16
  simp only [fold, Nat.shiftRight_eq_div_pow, h1]
  omega

/-- The folded value is the ones-complement reduction of the accumulator: congruent to it
modulo 65535, and zero only for a zero accumulator. -/
theorem fold_low_spec (x : Nat) (hx : x < 2 ^ 32) :
    fold x % 2 ^ 16 < 65536 ∧ (fold x % 2 ^ 16) % 65535 = x % 65535 ∧
      (fold x % 2 ^ 16 = 0 ↔ x = 0) := by
  rw [fold_low x hx]
  have hq : x / 65536 < 65536 := by omega
  have hr : x % 65536 < 65536 := Nat.mod_lt _ (by norm_num)
  have hdiv : 65536 * (x / 65536) + x % 65536 = x := Nat.div_add_mod x 65536
  generalize x / 65536 = q at hq hdiv ⊢
  generalize x % 65536 = r at hr hdiv ⊢
  have hxe : x = 65535 * q + (q + r) := by omega
  have hy : q + r < 131071 := by omega
  have hx0 : x = 0 ↔ q + r = 0 := by omega
  generalize q + r = y at hxe hy hx0 ⊢
  by_cases hlt : y < 65536
  · have h0 : y / 65536 = 0 := by omega
    rw [h0, Nat.add_zero, Nat.mod_eq_of_lt hlt]
    refine ⟨hlt, ?_, ?_⟩
    · rw [hxe, Nat.mul_add_mod]
    · omega
  · have h1 : y / 65536 = 1 := by omega
    have h2 : (y + 1) % 65536 = y - 65535 := by omega
    rw [h1, h2]
    refine ⟨by omega, ?_, by omega⟩
    rw [hxe, Nat.mul_add_mod]
    have h3 : y = (y - 65535) + 65535 := by omega
    conv_rhs => rw [h3, Nat.add_mod_right]

theorem wordSum_append {a : List Nat} (b : List Nat) (ha : a.length % 2 = 0) :
    wordSum (a ++ b) = wordSum a + wordSum b := by
  induction a using wordSum.induct with
  | case1 x y rest ih =>
    have hrest : rest.length % 2 = 0 := by
      simp only [List.length_cons] at ha
      omega
    have ih := ih hrest
    show wordSum (x :: y :: (rest ++ b)) = wordSum (x :: y :: rest) + wordSum b
    rw [wordSum, wordSum, ih]
    omega
  | case2 a hne =>
    match a, hne with
    | [], _ => simp [wordSum]
    | [x], _ => simp at ha
    | x :: y :: rest, hne => exact absurd rfl (hne x y rest)

theorem wordSum_le (d : List Nat) (hd : AllBytes d) : wordSum d ≤ 65535 * (d.length / 2) := by
  induction d using wordSum.induct with
  | case1 x y rest ih =>
    have hx : x < 256 := hd x (by simp)
    have hy : y < 256 := hd y (by simp)
    have hrest : AllBytes rest := fun z hz => hd z (by simp [hz])
    have := ih hrest
    simp only [wordSum, List.length_cons]
    omega
  | case2 d hne =>
    have h2 : wordSum d = 0 := by
      unfold wordSum
      split
      · exact absurd rfl (hne _ _ _)
      · rfl
    omega

theorem checkSum_arith (data : List Nat) (src dst : Array4) (hd : AllBytes data)
    (hs : src.WF) (ht : dst.WF) :
    checkSum data src dst
      = 65535 - fold ((pseudoSum data.length src dst + wordSum data) % 2 ^ 32) % 2 ^ 16 := by
  obtain ⟨s0, s1, s2, s3⟩ := hs
  obtain ⟨t0, t1, t2, t3⟩ := ht
  have hbytes : AllBytes ([src.b0, src.b1, src.b2, src.b3, dst.b0, dst.b1, dst.b2, dst.b3,
      0, 6, 0, data.length % 256] ++ data) := by
    refine AllBytes_append ?_ hd
    intro x hx
    simp only [List.mem_cons, List.mem_singleton, List.not_mem_nil, or_false] at hx
    have := Nat.mod_lt data.length (show 256 > 0 by norm_num)
    rcases hx with h | h | h | h | h | h | h | h | h | h | h | h <;> omega
  have hsum : wordSum ([src.b0, src.b1, src.b2, src.b3, dst.b0, dst.b1, dst.b2, dst.b3,
      0, 6, 0, data.length % 256] ++ data) = pseudoSum data.length src dst + wordSum data := by
    rw [wordSum_append _ (by simp)]
    simp only [wordSum, pseudoSum]
    omega
  unfold checkSum
  simp only []
  rw [sumLoop_eq _ 0 hbytes (by norm_num), xor_ffff (Nat.mod_lt _ (by norm_num)), hsum,
    Nat.zero_add]

theorem pseudoSum_lt (n : Nat) {src dst : Array4} (hs : src.WF) (ht : dst.WF) :
    6 ≤ pseudoSum n src dst ∧ pseudoSum n src dst < 4 * 65536 + 262 := by
  obtain ⟨s0, s1, s2, s3⟩ := hs
  obtain ⟨t0, t1, t2, t3⟩ := ht
  have := Nat.mod_lt n (show 256 > 0 by norm_num)
  unfold pseudoSum
  omega

theorem checkSum_lt (data : List Nat) (src dst : Array4) : checkSum data src dst < 65536 := by
  unfold checkSum
  simp only []
  rw [xor_ffff (Nat.mod_lt _ (by norm_num))]
  omega

theorem be16_putUint16 {c : Nat} (hc : c < 65536) : (c >>> 8) % 256 * 256 + c % 256 = c := by
  rw [Nat.shiftRight_eq_div_pow]
  omega

theorem wordSum_writePass (h : TcpHeader) (opts : List TcpOption) :
    wordSum (writePass h opts)
      = wordSum (writeHeader h) + wordSum (writeOptions opts ++ [0, 0, 0, 0, 0, 0]) := by
  unfold writePass
  rw [List.append_assoc, wordSum_append _ (by rw [writeHeader_length])]

theorem wordSum_writeHeader_patch (h : TcpHeader) (hck : h.ChkSum = 0) {c : Nat}
    (hc : c < 65536) :
    wordSum (writeHeader { h with ChkSum := c }) = wordSum (writeHeader h) + c := by
  have hb := be16_putUint16 hc
  simp only [writeHeader, putUint16, putUint32, List.cons_append, List.nil_append, wordSum, hck]
  simp only [Nat.zero_shiftRight, Nat.zero_mod, Nat.zero_mul, Nat.add_zero]
  omega

/-- Adding the computed checksum to the summed words makes the checksum of the result zero:
the arithmetic behind the self-verifying checksum. -/
theorem checkSum_patched {data0 data1 : List Nat} {src dst : Array4}
    (h0 : AllBytes data0) (h1 : AllBytes data1) (hs : src.WF) (ht : dst.WF)
    (hlen : data1.length = data0.length) (hmax : data0.length ≤ 65535)
    (hsum : wordSum data1 = wordSum data0 + checkSum data0 src dst) :
    checkSum data1 src dst = 0 := by
  have hp := pseudoSum_lt data0.length hs ht
  have hw := wordSum_le data0 h0
  have hw2 : 65535 * (data0.length / 2) ≤ 65535 * 32767 :=
    Nat.mul_le_mul_left _ (by omega)
  have c0 := checkSum_arith data0 src dst h0 hs ht
  have c1 := checkSum_arith data1 src dst h1 hs ht
  rw [hlen, hsum, ← Nat.add_assoc] at c1
  obtain ⟨S, hSdef⟩ : ∃ S, S = pseudoSum data0.length src dst + wordSum data0 := ⟨_, rfl⟩
  rw [← hSdef] at c0 c1
  have hS : S < 2 ^ 32 - 65536 := by omega
  have hS0 : 0 < S := by omega
  rw [Nat.mod_eq_of_lt (show S < 2 ^ 32 by omega)] at c0
  have f0 := fold_low_spec S (by omega)
  generalize fold S % 2 ^ 16 = f at c0 f0
  rw [c0] at c1
  have hf0 : f ≠ 0 := fun h => by have := f0.2.2.mp h; omega
  rw [Nat.mod_eq_of_lt (show S + (65535 - f) < 2 ^ 32 by omega)] at c1
  have f1 := fold_low_spec (S + (65535 - f)) (by omega)
  generalize fold (S + (65535 - f)) % 2 ^ 16 = g at c1 f1
  have hg0 : g ≠ 0 := fun h => by have := f1.2.2.mp h; omega
  have hg : g = 65535 := by omega
  rw [c1, hg]

/-! ## The reference internet checksum -/

theorem onesAdd_spec {x y : Nat} (hx : x ≤ 65535) (hy : y ≤ 65535) :
    onesAdd x y ≤ 65535 ∧ onesAdd x y % 65535 = (x + y) % 65535 ∧
      (onesAdd x y = 0 ↔ x = 0 ∧ y = 0) := by
  unfold onesAdd
  by_cases h : x + y < 65536
  · have h0 : (x + y) / 65536 = 0 := by omega
    rw [h0, Nat.add_zero, Nat.mod_eq_of_lt h]
    omega
  · have h1 : (x + y) / 65536 = 1 := by omega
    have h2 : (x + y) % 65536 = x + y - 65536 := by omega
    rw [h1, h2]
    omega

theorem foldl_onesAdd_spec (ws : List Nat) (hws : ∀ w ∈ ws, w ≤ 65535) :
    ∀ acc, acc ≤ 65535 →
      ws.foldl onesAdd acc ≤ 65535 ∧
      ws.foldl onesAdd acc % 65535 = (acc + ws.sum) % 65535 ∧
      (ws.foldl onesAdd acc = 0 ↔ acc + ws.sum = 0) := by
  induction ws with
  | nil => intro acc hacc; simp [hacc]
  | cons w ws ih =>
    intro acc hacc
    have hw : w ≤ 65535 := hws w (List.mem_cons_self _ _)
    have ih := ih (fun x hx => hws x (List.mem_cons_of_mem _ hx)) (onesAdd acc w)
      (onesAdd_spec hacc hw).1
    obtain ⟨a1, a2, a3⟩ := onesAdd_spec hacc hw
    obtain ⟨i1, i2, i3⟩ := ih
    simp only [List.foldl_cons, List.sum_cons]
    refine ⟨i1, ?_, ?_⟩
    · rw [i2]; omega
    · rw [i3]; omega

theorem beWords_le (d : List Nat) (hd : AllBytes d) : ∀ w ∈ beWords d, w ≤ 65535 := by
  induction d using beWords.induct with
  | case1 a b rest ih =>
    intro w hw
    have ha : a < 256 := hd a (by simp)
    have hb : b < 256 := hd b (by simp)
    simp only [beWords, List.mem_cons] at hw
    rcases hw with rfl | hw
    · omega
    · exact ih (fun z hz => hd z (by simp [hz])) w hw
  | case2 a =>
    intro w hw
    have ha : a < 256 := hd a (by simp)
    simp only [beWords, List.mem_singleton] at hw
    omega
  | case3 => intro w hw; simp [beWords] at hw

theorem sum_beWords (d : List Nat) (hd : d.length % 2 = 0) : (beWords d).sum = wordSum d := by
  induction d using beWords.induct with
  | case1 a b rest ih =>
    have hrest : rest.length % 2 = 0 := by
      simp only [List.length_cons] at hd
      omega
    simp only [beWords, wordSum, List.sum_cons, ih hrest]
  | case2 a => simp at hd
  | case3 => simp [beWords, wordSum]

/-! ## `GenerateSyn` -/

/-- The bytes `GenerateSyn` returns, for ports and sequence number in the range of their
types: the header fields, the checksum `c` at 16..17, the two options and six zero bytes. -/
theorem GenerateSyn_layout {seq sp dp : Nat} {l r : String} {out : List Nat}
    (hseq : seq < 2 ^ 32) (hsp : sp < 2 ^ 16) (hdp : dp < 2 ^ 16)
    (hgs : GenerateSyn seq l r sp dp = some ⟨some out, none⟩) :
    ∃ c, c < 65536 ∧ out =
      [sp / 256, sp % 256, dp / 256, dp % 256,
        seq / 2 ^ 24, seq / 2 ^ 16 % 256, seq / 2 ^ 8 % 256, seq % 256,
        0, 0, 0, 0, 0x80, 0x02, 0x04, 0x00, c / 256, c % 256, 0, 0,
        0x02, 0x04, 0x05, 0xb4, 0, 0, 0, 0, 0, 0, 0, 0] := by
  obtain ⟨src, dst, -, -, -, -, rfl⟩ := GeneratePacket_returns hgs
  have hc := checkSum_lt (writePass ⟨sp, dp, seq, 0, 0x8002, 1024, 0, 0⟩
    [⟨2, 4, [0x05, 0xb4]⟩, ⟨0, 0, []⟩]) src dst
  refine ⟨_, hc, ?_⟩
  generalize checkSum (writePass ⟨sp, dp, seq, 0, 0x8002, 1024, 0, 0⟩
    [⟨2, 4, [0x05, 0xb4]⟩, ⟨0, 0, []⟩]) src dst = c at hc
  have hwf : TcpHeader.WF ⟨sp, dp, seq, 0, 0x8002, 1024, c, 0⟩ :=
    ⟨hsp, hdp, hseq, by norm_num, by norm_num, by norm_num, hc, by norm_num⟩
  show writeHeader ⟨sp, dp, seq, 0, 0x8002, 1024, c, 0⟩
    ++ writeOptions [⟨2, 4, [0x05, 0xb4]⟩, ⟨0, 0, []⟩] ++ [0, 0, 0, 0, 0, 0] = _
  rw [writeHeader_layout _ hwf]
  simp only [writeOptions, writeOption, List.cons_append, List.nil_append, List.append_nil]
  rfl

/-- On valid dotted-decimal addresses `GenerateSyn` returns bytes. -/
theorem GenerateSyn_dotted_returns (seq sp dp : Nat) {l r : String}
    (hl : IsDottedQuad l) (hr : IsDottedQuad r) :
    ∃ out, GenerateSyn seq l r sp dp = some ⟨some out, none⟩ :=
  GeneratePacket_dotted_returns _ _ hl hr

theorem writeOptions_append (a b : List TcpOption) :
    writeOptions (a ++ b) = writeOptions a ++ writeOptions b := by
  induction a with
  | nil => rfl
  | cons o rest ih =>
    show writeOption o ++ writeOptions (rest ++ b)
      = writeOption o ++ writeOptions rest ++ writeOptions b
    rw [ih, List.append_assoc]

theorem sumLoop_append_even {a : List Nat} (b : List Nat) (acc : Nat)
    (ha : a.length % 2 = 0) : sumLoop (a ++ b) acc = sumLoop b (sumLoop a acc) := by
  induction a, acc using sumLoop.induct with
  | case1 x y rest sum ih =>
    have hrest : rest.length % 2 = 0 := by
      simp only [List.length_cons] at ha
      omega
    show sumLoop (x :: y :: (rest ++ b)) sum = sumLoop b (sumLoop (x :: y :: rest) sum)
    rw [sumLoop, sumLoop, ih hrest]
  | case2 a sum hne =>
    match a, hne with
    | [], _ => rfl
    | [x], _ => simp at ha
    | x :: y :: rest, hne => exact absurd rfl (hne x y rest)

/-- The second folding step leaves the end-around-carry sum of the two halves of the
accumulator. -/
theorem fold_low_eq_onesAdd (x : Nat) (hx : x < 2 ^ 32) :
    fold x % 2 ^ 16 = onesAdd (x / 65536) (x % 65536) := by
  rw [fold_low x hx]
  unfold onesAdd
  have hq : x / 65536 < 65536 := by omega
  have hr : x % 65536 < 65536 := Nat.mod_lt _ (by norm_num)
  generalize x / 65536 = q at hq ⊢
  generalize x % 65536 = r at hr ⊢
  omega

theorem fold_no_wrap (x : Nat) (hx : x < 2 ^ 32) :
    fold x = ((x >>> 16) + (x &&& 0xffff)) + (((x >>> 16) + (x &&& 0xffff)) >>> 16) := by
  have h1 : x &&& 0xffff = x % 2 ^ 16 := Nat.and_pow_two_sub_one_eq_mod x 16
  have hy : x / 2 ^ 16 + x % 2 ^ 16 < 2 ^ 17 := by omega
  simp only [fold, Nat.shiftRight_eq_div_pow, h1]
  generalize x / 2 ^ 16 + x % 2 ^ 16 = y at hy ⊢
  rw [Nat.mod_eq_of_lt (show y < 2 ^ 32 by omega)]
  exact Nat.mod_eq_of_lt (by omega)

theorem checkSumStd_arith (data : List Nat) (src dst : Array4) (hd : AllBytes data)
    (hs : src.WF) (ht : dst.WF) (hlen : data.length ≤ 65535) :
    checkSumStd data src dst
      = 65535 - fold ((pseudoSum data.length src dst + 256 * (data.length / 256)
          + wordSum data) % 2 ^ 32) % 2 ^ 16 := by
  obtain ⟨s0, s1, s2, s3⟩ := hs
  obtain ⟨t0, t1, t2, t3⟩ := ht
  have hhi : (data.length >>> 8) % 256 = data.length / 256 := by
    rw [Nat.shiftRight_eq_div_pow]
    omega
  have hbytes : AllBytes ([src.b0, src.b1, src.b2, src.b3, dst.b0, dst.b1, dst.b2, dst.b3,
      0, 6, (data.length >>> 8) % 256, data.length % 256] ++ data) := by
    refine AllBytes_append ?_ hd
    intro x hx
    simp only [List.mem_cons, List.mem_singleton, List.not_mem_nil, or_false] at hx
    have := Nat.mod_lt data.length (show 256 > 0 by norm_num)
    have := Nat.mod_lt (data.length >>> 8) (show 256 > 0 by norm_num)
    rcases hx with h | h | h | h | h | h | h | h | h | h | h | h <;> omega
  have hsum : wordSum ([src.b0, src.b1, src.b2, src.b3, dst.b0, dst.b1, dst.b2, dst.b3,
      0, 6, (data.length >>> 8) % 256, data.length % 256] ++ data)
      = pseudoSum data.length src dst + 256 * (data.length / 256) + wordSum data := by
    rw [wordSum_append _ (by simp), hhi]
    simp only [wordSum, pseudoSum]
    omega
  unfold checkSumStd
  simp only []
  rw [sumLoop_eq _ 0 hbytes (by norm_num), xor_ffff (Nat.mod_lt _ (by norm_num)), hsum,
    Nat.zero_add]

/-- Two non-zero accumulators fold to the same 16 bits exactly when they are congruent
modulo 65535. -/
theorem fold_low_eq_iff {x y : Nat} (hx : x < 2 ^ 32) (hy : y < 2 ^ 32) (hx0 : 0 < x)
    (hy0 : 0 < y) : fold x % 2 ^ 16 = fold y % 2 ^ 16 ↔ x % 65535 = y % 65535 := by
  obtain ⟨a1, a2, a3⟩ := fold_low_spec x hx
  obtain ⟨b1, b2, b3⟩ := fold_low_spec y hy
  generalize fold x % 2 ^ 16 = f at a1 a2 a3 ⊢
  generalize fold y % 2 ^ 16 = g at b1 b2 b3 ⊢
  have hf : f ≠ 0 := fun h => by have := a3.mp h; omega
  have hg : g ≠ 0 := fun h => by have := b3.mp h; omega
  constructor
  · intro h
    rw [← a2, ← b2, h]
  · intro h
    omega

theorem sum_map_two_add (opts : List TcpOption) :
    (opts.map (fun o => 2 + o.Data.length)).sum
      = 2 * opts.length + (opts.map (fun o => o.Data.length)).sum := by
  induction opts with
  | nil => rfl
  | cons o rest ih =>
    simp only [List.map_cons, List.sum_cons, List.length_cons, ih]
    omega

theorem writePass_length_sum (h : TcpHeader) (opts : List TcpOption) :
    (writePass h opts).length = 26 + (opts.map (fun o => 2 + o.Data.length)).sum := by
  rw [writePass_length, writeOptions_eq_encOptions, length_encOptions]
  omega

theorem slice_16_18_writePass (h : TcpHeader) (opts : List TcpOption) :
    slice (writePass h opts) 16 18 = [(h.ChkSum >>> 8) % 256, h.ChkSum % 256] := by
  simp only [slice, writePass, writeHeader, putUint16, putUint32, List.cons_append,
    List.nil_append, List.drop_succ_cons, List.drop_zero]
  rfl

/-- The bytes returned by `GeneratePacket` carry at 16..17 the checksum of the first-pass
buffer `writePass h opts`. -/
theorem GeneratePacket_embeds_first_pass {h : TcpHeader} {opts : List TcpOption}
    {l r : String} {out : List Nat}
    (hgp : GeneratePacket h opts l r = some ⟨some out, none⟩) :
    ∃ src dst, ipstr2Bytes l = some src ∧ ipstr2Bytes r = some dst ∧
      be16At out 16 = checkSum (writePass h opts) src dst := by
  obtain ⟨src, dst, -, -, hsrc, hdst, rfl⟩ := GeneratePacket_returns hgp
  refine ⟨src, dst, hsrc, hdst, ?_⟩
  rw [be16At_writePass_chk]
  exact be16_putUint16 (checkSum_lt _ _ _)

/-! ## `strconv.Atoi` on arbitrary texts -/

theorem digitsVal_ge (ds : List Char) : ∀ n, n ≤ (digitsVal ds n).1 := by
  induction ds with
  | nil => intro n; exact Nat.le_refl _
  | cons c cs ih =>
    intro n
    unfold digitsVal
    split
    · have := ih (n * 10 + (c.toNat - 48))
      omega
    · exact Nat.le_refl _

theorem digitsVal_lt (ds : List Char) : ∀ n, (digitsVal ds n).1 < (n + 1) * 10 ^ ds.length := by
  induction ds with
  | nil => intro n; simp [digitsVal]
  | cons c cs ih =>
    intro n
    have hpos : 0 < 10 ^ cs.length := pow_pos (by norm_num) _
    unfold digitsVal
    split
    · rename_i hdig
      have hd : c.toNat - 48 ≤ 9 := by
        simp only [isDigit, decide_eq_true_eq] at hdig
        omega
      have h1 := ih (n * 10 + (c.toNat - 48))
      have h2 : (n * 10 + (c.toNat - 48) + 1) * 10 ^ cs.length
          ≤ ((n + 1) * 10) * 10 ^ cs.length := Nat.mul_le_mul_right _ (by omega)
      rw [List.length_cons, Nat.pow_succ, Nat.mul_comm (10 ^ cs.length) 10, ← Nat.mul_assoc]
      omega
    · rw [List.length_cons, Nat.pow_succ]
      show n < (n + 1) * (10 ^ cs.length * 10)
      have h3 : (n + 1) * 1 ≤ (n + 1) * (10 ^ cs.length * 10) :=
        Nat.mul_le_mul_left _ (by omega)
      omega

theorem atoiFastLoop_eq (ds : List Char) : ∀ n,
    atoiFastLoop ds n = if (digitsVal ds n).2 = [] then some (digitsVal ds n).1 else none := by
  induction ds with
  | nil => intro n; simp [atoiFastLoop, digitsVal]
  | cons c cs ih =>
    intro n
    unfold atoiFastLoop digitsVal
    split
    · exact ih _
    · simp

theorem parseUintLoop_eq (ds : List Char) : ∀ n, n < 2 ^ 64 →
    parseUintLoop ds n =
      if (digitsVal ds n).1 ≥ 2 ^ 64 then (2 ^ 64 - 1, NumError.errRange)
      else if (digitsVal ds n).2 ≠ [] then (0, NumError.errSyntax)
      else ((digitsVal ds n).1, NumError.noError) := by
  induction ds with
  | nil =>
    intro n hn
    have h : ¬ n ≥ 2 ^ 64 := by omega
    show (n, NumError.noError) = if n ≥ 2 ^ 64 then (2 ^ 64 - 1, NumError.errRange)
      else if ([] : List Char) ≠ [] then (0, NumError.errSyntax) else (n, NumError.noError)
    rw [if_neg h, if_neg (by simp)]
  | cons c cs ih =>
    intro n hn
    unfold parseUintLoop digitsVal
    split
    · rename_i hdig
      have hd : c.toNat - 48 ≤ 9 := by
        simp only [isDigit, decide_eq_true_eq] at hdig
        omega
      have hge := digitsVal_ge cs (n * 10 + (c.toNat - 48))
      by_cases hcut : n ≥ (2 ^ 64 - 1) / 10 + 1
      · have hbig : (digitsVal cs (n * 10 + (c.toNat - 48))).1 ≥ 2 ^ 64 := by omega
        rw [if_pos hcut, if_pos hbig]
      · rw [if_neg hcut]
        have hm : (n * 10) % 2 ^ 64 = n * 10 := Nat.mod_eq_of_lt (by omega)
        simp only [hm]
        by_cases hov : n * 10 + (c.toNat - 48) < 2 ^ 64
        · have hm2 : (n * 10 + (c.toNat - 48)) % 2 ^ 64 = n * 10 + (c.toNat - 48) :=
            Nat.mod_eq_of_lt hov
          have hno : ¬ (n * 10 + (c.toNat - 48) < n * 10 ∨
              n * 10 + (c.toNat - 48) > 2 ^ 64 - 1) := by omega
          rw [hm2, if_neg hno]
          exact ih _ hov
        · have hbig : (digitsVal cs (n * 10 + (c.toNat - 48))).1 ≥ 2 ^ 64 := by omega
          have hwrap : (n * 10 + (c.toNat - 48)) % 2 ^ 64 < n * 10 ∨
              (n * 10 + (c.toNat - 48)) % 2 ^ 64 > 2 ^ 64 - 1 := by
            left
            omega
          rw [if_pos hwrap, if_pos hbig]
    · have h : ¬ n ≥ 2 ^ 64 := by omega
      show (0, NumError.errSyntax) = if n ≥ 2 ^ 64 then (2 ^ 64 - 1, NumError.errRange)
        else if c :: cs ≠ [] then (0, NumError.errSyntax) else (n, NumError.noError)
      rw [if_neg h, if_pos (by simp)]

theorem length_le_byteLen (s : List Char) : s.length ≤ byteLen s := by
  induction s with
  | nil => simp [byteLen]
  | cons c cs ih =>
    have := Char.utf8Size_pos c
    simp only [byteLen, List.map_cons, List.sum_cons, List.length_cons] at ih ⊢
    omega

theorem toByte_ofNat (n : Nat) : toByte (n : Int) = n % 256 := by
  unfold toByte
  omega

/-- The fast path of `strconv.Atoi`, on a body of at most 18 characters. -/
theorem atoi_fast_core (neg : Bool) (body : List Char) (hlen : body.length ≤ 18) :
    toByte (if body = [] then (0 : Int) else
      match atoiFastLoop body 0 with
      | none => 0
      | some n => if neg = true then -(n : Int) else (n : Int)) = segmentByteOf neg body := by
  have hv := digitsVal_lt body 0
  have hpow : 10 ^ body.length ≤ 10 ^ 18 := Nat.pow_le_pow_right (by norm_num) hlen
  have hv63 : (digitsVal body 0).1 < 2 ^ 63 := by
    have h18 : (10 : Nat) ^ 18 < 2 ^ 63 := by norm_num
    omega
  rw [atoiFastLoop_eq]
  unfold segmentByteOf
  simp only []
  have h64 : ¬ (digitsVal body 0).1 ≥ 2 ^ 64 := by omega
  have h63 : ¬ (digitsVal body 0).1 ≥ 2 ^ 63 := by omega
  have h63' : ¬ (digitsVal body 0).1 > 2 ^ 63 := by omega
  rw [if_neg h64]
  by_cases hb : body = []
  · rw [if_pos hb, if_pos (Or.inl hb)]
    rfl
  · rw [if_neg hb]
    by_cases hr : (digitsVal body 0).2 = []
    · have hno : ¬ (body = [] ∨ (digitsVal body 0).2 ≠ []) := by
        intro h
        rcases h with h | h
        · exact hb h
        · exact h hr
      rw [if_pos hr, if_neg hno]
      cases neg with
      | true => simp only [if_true, if_neg h63']
      | false =>
        simp only [Bool.false_eq_true, if_false, if_neg h63]
        exact toByte_ofNat _
    · rw [if_neg hr, if_pos (Or.inr hr)]
      rfl

/-- The slow path of `strconv.Atoi`: `strconv.ParseInt` after the sign is taken off. -/
theorem atoi_slow_core (neg : Bool) (body : List Char) :
    toByte (if (parseUint body).2 = NumError.errSyntax then (0 : Int)
      else if (!neg) = true ∧ (parseUint body).1 ≥ 2 ^ 63 then 2 ^ 63 - 1
      else if neg = true ∧ (parseUint body).1 > 2 ^ 63 then -(2 ^ 63)
      else if neg = true then -((parseUint body).1 : Int) else ((parseUint body).1 : Int))
      = segmentByteOf neg body := by
  unfold segmentByteOf parseUint
  simp only []
  by_cases hb : body = []
  · subst hb
    cases neg <;> decide
  · rw [if_neg hb, parseUintLoop_eq body 0 (by norm_num)]
    by_cases h64 : (digitsVal body 0).1 ≥ 2 ^ 64
    · rw [if_pos h64, if_pos h64]
      cases neg <;> decide
    · rw [if_neg h64, if_neg h64]
      by_cases hr : (digitsVal body 0).2 = []
      · have hno : ¬ (body = [] ∨ (digitsVal body 0).2 ≠ []) := by
          intro h
          rcases h with h | h
          · exact hb h
          · exact h hr
        have hnr : ¬ (digitsVal body 0).2 ≠ [] := fun h => h hr
        rw [if_neg hnr, if_neg hno]
        simp only [reduceCtorEq, if_false]
        generalize (digitsVal body 0).1 = v at h64
        cases neg with
        | true =>
          simp only [Bool.not_true, Bool.false_eq_true, false_and, if_false, true_and, if_true]
          by_cases hgt : v > 2 ^ 63
          · rw [if_pos hgt, if_pos hgt]
            decide
          · rw [if_neg hgt, if_neg hgt]
        | false =>
          simp only [Bool.not_false, true_and, Bool.false_eq_true, false_and, if_false]
          by_cases hge : v ≥ 2 ^ 63
          · rw [if_pos hge, if_pos hge]
            decide
          · rw [if_neg hge, if_neg hge]
            exact toByte_ofNat _
      · have hnr : (digitsVal body 0).2 ≠ [] := hr
        rw [if_pos hnr, if_pos (Or.inr hnr)]
        rfl

theorem parseInt_cons (c : Char) (cs : List Char) :
    parseInt (c :: cs) =
      if (parseUint (if c = '+' ∨ c = '-' then cs else c :: cs)).2 = NumError.errSyntax
        then (0 : Int)
      else if (!decide (c = '-')) = true ∧
          (parseUint (if c = '+' ∨ c = '-' then cs else c :: cs)).1 ≥ 2 ^ 63 then 2 ^ 63 - 1
      else if decide (c = '-') = true ∧
          (parseUint (if c = '+' ∨ c = '-' then cs else c :: cs)).1 > 2 ^ 63 then -(2 ^ 63)
      else if decide (c = '-') = true then
        -((parseUint (if c = '+' ∨ c = '-' then cs else c :: cs)).1 : Int)
      else ((parseUint (if c = '+' ∨ c = '-' then cs else c :: cs)).1 : Int) := by
  unfold parseInt
  simp only []

theorem atoi_cons_fast (c : Char) (cs : List Char)
    (h : 0 < byteLen (c :: cs) ∧ byteLen (c :: cs) < 19) :
    atoi (c :: cs) =
      if (if c = '-' ∨ c = '+' then cs else c :: cs) = [] then (0 : Int) else
        match atoiFastLoop (if c = '-' ∨ c = '+' then cs else c :: cs) 0 with
        | none => 0
        | some n => if decide (c = '-') = true then -(n : Int) else (n : Int) := by
  unfold atoi
  rw [if_pos h]
  simp only [decide_eq_true_eq]

theorem atoi_cons_slow (c : Char) (cs : List Char)
    (h : ¬ (0 < byteLen (c :: cs) ∧ byteLen (c :: cs) < 19)) :
    atoi (c :: cs) = parseInt (c :: cs) := by
  unfold atoi
  rw [if_neg h]

theorem segmentByte_cons (c : Char) (cs : List Char) :
    segmentByte (c :: cs)
      = segmentByteOf (decide (c = '-')) (if c = '-' ∨ c = '+' then cs else c :: cs) := by
  simp [segmentByte]

/-- The byte `ipstr2Bytes` makes of one segment: `byte(b)` of the value `strconv.Atoi`
returns, its error dropped. -/
theorem toByte_atoi (s : List Char) : toByte (atoi s) = segmentByte s := by
  cases s with
  | nil => decide
  | cons c cs =>
    rw [segmentByte_cons]
    by_cases hfast : 0 < byteLen (c :: cs) ∧ byteLen (c :: cs) < 19
    · have hlen := length_le_byteLen (c :: cs)
      have hl : (if c = '-' ∨ c = '+' then cs else c :: cs).length ≤ 18 := by
        simp only [List.length_cons] at hlen
        split
        · omega
        · simp only [List.length_cons]
          omega
      rw [atoi_cons_fast c cs hfast]
      exact atoi_fast_core _ _ hl
    · rw [atoi_cons_slow c cs hfast, parseInt_cons]
      have hor : (c = '+' ∨ c = '-') = (c = '-' ∨ c = '+') := propext Or.comm
      simp only [hor]
      exact atoi_slow_core _ _

theorem splitDots_length (cs : List Char) : (splitDots cs).length = cs.count '.' + 1 := by
  induction cs with
  | nil => rfl
  | cons c cs ih =>
    unfold splitDots
    by_cases hc : c = '.'
    · subst hc
      simp only [if_true, List.length_cons, ih, List.count_cons_self]
    · rw [if_neg hc, List.count_cons_of_ne (fun h => hc h.symm)]
      cases hsp : splitDots cs with
      | nil => exact absurd hsp (splitDots_ne_nil cs)
      | cons piece pieces =>
        rw [hsp] at ih
        simpa using ih

/-! ## The claims -/

/-- Claim C1. Self-verifying checksum: for a header whose `ChkSum` is 0, options with byte
fields and an encoded segment of at most 65535 bytes, `GeneratePacket` returns bytes on
every pair of valid dotted-decimal IPv4 addresses `l`, `r`, and whenever it returns bytes
`out`, `checkSum` run again over `out` (the checksum field included) with the bytes of `l`
and `r` gives `0x0000`. -/
theorem generatePacket_checksum_self_verifying (h : TcpHeader) (opts : List TcpOption)
    (l r : String) (hck : h.ChkSum = 0) (hopts : ∀ o ∈ opts, o.WF)
    (hlen : (writePass h opts).length ≤ 65535) :
    (IsDottedQuad l → IsDottedQuad r →
      ∃ out, GeneratePacket h opts l r = some ⟨some out, none⟩) ∧
    ∀ out, GeneratePacket h opts l r = some ⟨some out, none⟩ →
      ∃ src dst, ipstr2Bytes l = some src ∧ ipstr2Bytes r = some dst ∧
        checkSum out src dst = 0 := by
  refine ⟨GeneratePacket_dotted_returns h opts, ?_⟩
  intro out hgp
  obtain ⟨src, dst, hs, ht, hsrc, hdst, rfl⟩ := GeneratePacket_returns hgp
  refine ⟨src, dst, hsrc, hdst, ?_⟩
  refine checkSum_patched (AllBytes_writePass h hopts) (AllBytes_writePass _ hopts) hs ht ?_
    hlen ?_
  · rw [writePass_length, writePass_length]
  · rw [wordSum_writePass, wordSum_writePass,
      wordSum_writeHeader_patch h hck (checkSum_lt _ _ _)]
    omega

theorem generatePacket_checksum_self_verifying_witness :
    sampleHeader.ChkSum = 0 ∧ (writePass sampleHeader sampleOptions).length ≤ 65535 ∧
    GeneratePacket sampleHeader sampleOptions "10.0.0.1" "10.0.0.2"
      = some ⟨some sampleOutput, none⟩ ∧
    checkSum sampleOutput ⟨10, 0, 0, 1⟩ ⟨10, 0, 0, 2⟩ = 0 := by
  have hgp : GeneratePacket sampleHeader sampleOptions "10.0.0.1" "10.0.0.2"
      = some ⟨some sampleOutput, none⟩ := by decide
  obtain ⟨src, dst, hs, hd, hc⟩ :=
    (generatePacket_checksum_self_verifying sampleHeader sampleOptions "10.0.0.1" "10.0.0.2"
      rfl (by decide) (by decide)).2 sampleOutput hgp
  have e1 : ipstr2Bytes "10.0.0.1" = some ⟨10, 0, 0, 1⟩ := by decide
  have e2 : ipstr2Bytes "10.0.0.2" = some ⟨10, 0, 0, 2⟩ := by decide
  rw [e1] at hs
  rw [e2] at hd
  cases hs
  cases hd
  exact ⟨rfl, by decide, hgp, hc⟩

/-- Claim C2. The embedded checksum equals the recomputed one: for a header whose `ChkSum`
is 0, `GeneratePacket` returns bytes on every pair of valid dotted-decimal IPv4 addresses,
and whenever it returns bytes `out`, `out` with bytes 16 and 17 set back to zero is the
first-pass serialisation and the big-endian value stored at `out[16:18]` is `checkSum` of
those first-pass bytes. -/
theorem generatePacket_embedded_checksum (h : TcpHeader) (opts : List TcpOption)
    (l r : String) (hck : h.ChkSum = 0) :
    (IsDottedQuad l → IsDottedQuad r →
      ∃ out, GeneratePacket h opts l r = some ⟨some out, none⟩) ∧
    ∀ out, GeneratePacket h opts l r = some ⟨some out, none⟩ →
      ∃ src dst, ipstr2Bytes l = some src ∧ ipstr2Bytes r = some dst ∧
        zeroChkSum out = writePass h opts ∧
        be16At out 16 = checkSum (zeroChkSum out) src dst := by
  refine ⟨GeneratePacket_dotted_returns h opts, ?_⟩
  intro out hgp
  obtain ⟨src, dst, -, -, hsrc, hdst, rfl⟩ := GeneratePacket_returns hgp
  refine ⟨src, dst, hsrc, hdst, zeroChkSum_writePass h opts _ hck, ?_⟩
  rw [zeroChkSum_writePass h opts _ hck, be16At_writePass_chk]
  exact be16_putUint16 (checkSum_lt _ _ _)

theorem generatePacket_embedded_checksum_witness :
    sampleHeader.ChkSum = 0 ∧
    GeneratePacket sampleHeader sampleOptions "10.0.0.1" "10.0.0.2"
      = some ⟨some sampleOutput, none⟩ ∧
    zeroChkSum sampleOutput = writePass sampleHeader sampleOptions ∧
    be16At sampleOutput 16 = checkSum (zeroChkSum sampleOutput) ⟨10, 0, 0, 1⟩ ⟨10, 0, 0, 2⟩ ∧
    be16At sampleOutput 16 = 0x2f8c := by
  have hgp : GeneratePacket sampleHeader sampleOptions "10.0.0.1" "10.0.0.2"
      = some ⟨some sampleOutput, none⟩ := by decide
  obtain ⟨src, dst, hs, hd, hz, hc⟩ :=
    (generatePacket_embedded_checksum sampleHeader sampleOptions "10.0.0.1" "10.0.0.2"
      rfl).2 sampleOutput hgp
  have e1 : ipstr2Bytes "10.0.0.1" = some ⟨10, 0, 0, 1⟩ := by decide
  have e2 : ipstr2Bytes "10.0.0.2" = some ⟨10, 0, 0, 2⟩ := by decide
  rw [e1] at hs
  rw [e2] at hd
  cases hs
  cases hd
  exact ⟨rfl, hgp, hz, hc, by decide⟩

/-- Claim C3. `checkSum` matches the reference internet checksum: for 4-byte `src` and `dst`
and an even-length `data` of at most 65535 bytes, `checkSum data src dst` is the 16-bit
complement of the ones-complement sum (end-around carry) of the big-endian words of
`src ++ dst ++ [0, 6, 0, len(data) mod 256] ++ data`. -/
theorem checkSum_eq_referenceChecksum (data : List Nat) (src dst : Array4)
    (hs : src.WF) (ht : dst.WF) (hd : AllBytes data) (heven : data.length % 2 = 0)
    (hlen : data.length ≤ 65535) :
    checkSum data src dst
      = referenceChecksum
          (src.toList ++ dst.toList ++ [0, 6, 0, data.length % 256] ++ data) := by
  have hbuf : src.toList ++ dst.toList ++ [0, 6, 0, data.length % 256] ++ data
      = [src.b0, src.b1, src.b2, src.b3, dst.b0, dst.b1, dst.b2, dst.b3,
          0, 6, 0, data.length % 256] ++ data := by
    simp [Array4.toList]
  have hbytes : AllBytes ([src.b0, src.b1, src.b2, src.b3, dst.b0, dst.b1, dst.b2, dst.b3,
      0, 6, 0, data.length % 256] ++ data) := by
    obtain ⟨s0, s1, s2, s3⟩ := hs
    obtain ⟨t0, t1, t2, t3⟩ := ht
    refine AllBytes_append ?_ hd
    intro x hx
    simp only [List.mem_cons, List.mem_singleton, List.not_mem_nil, or_false] at hx
    have := Nat.mod_lt data.length (show 256 > 0 by norm_num)
    rcases hx with h | h | h | h | h | h | h | h | h | h | h | h <;> omega
  have hsum : wordSum ([src.b0, src.b1, src.b2, src.b3, dst.b0, dst.b1, dst.b2, dst.b3,
      0, 6, 0, data.length % 256] ++ data) = pseudoSum data.length src dst + wordSum data := by
    rw [wordSum_append _ (by simp)]
    simp only [wordSum, pseudoSum]
    omega
  have hp := pseudoSum_lt data.length hs ht
  have hw := wordSum_le data hd
  have hw2 : 65535 * (data.length / 2) ≤ 65535 * 32767 := Nat.mul_le_mul_left _ (by omega)
  rw [checkSum_arith data src dst hd hs ht, hbuf, referenceChecksum, onesSum]
  obtain ⟨r1, r2, r3⟩ := foldl_onesAdd_spec _ (beWords_le _ hbytes) 0 (by norm_num)
  rw [sum_beWords _ (by simp only [List.length_append, List.length_cons, List.length_nil]; omega),
    hsum] at r2 r3
  obtain ⟨S, hS⟩ : ∃ S, S = pseudoSum data.length src dst + wordSum data := ⟨_, rfl⟩
  rw [← hS] at r2 r3 ⊢
  have hS32 : S < 2 ^ 32 := by omega
  rw [Nat.mod_eq_of_lt hS32]
  obtain ⟨f1, f2, f3⟩ := fold_low_spec S hS32
  generalize fold S % 2 ^ 16 = f at f1 f2 f3 ⊢
  generalize List.foldl onesAdd 0 (beWords ([src.b0, src.b1, src.b2, src.b3, dst.b0, dst.b1,
    dst.b2, dst.b3, 0, 6, 0, data.length % 256] ++ data)) = g at r1 r2 r3 ⊢
  omega

theorem checkSum_eq_referenceChecksum_witness :
    checkSum (writePass sampleHeader sampleOptions) ⟨10, 0, 0, 1⟩ ⟨10, 0, 0, 2⟩
      = referenceChecksum ((⟨10, 0, 0, 1⟩ : Array4).toList ++ (⟨10, 0, 0, 2⟩ : Array4).toList
          ++ [0, 6, 0, (writePass sampleHeader sampleOptions).length % 256]
          ++ writePass sampleHeader sampleOptions) :=
  checkSum_eq_referenceChecksum (writePass sampleHeader sampleOptions) ⟨10, 0, 0, 1⟩
    ⟨10, 0, 0, 2⟩ (by decide) (by decide) (by decide) (by decide) (by decide)

/-- Claim C4. Header layout: for a header `h` with fields in the range of their types,
`GeneratePacket` returns bytes on every pair of valid dotted-decimal IPv4 addresses, and
whenever it returns bytes `out`, the first 20 bytes of `out` are, big-endian and in this
order, `Src` (2 bytes), `Dst` (2), `Seq` (4), `Ack` (4), `Flags` (2), `Window` (2), the
computed checksum (2), `UPointer` (2); decoding them gives `h` back with `ChkSum` replaced
by the computed checksum. -/
theorem generatePacket_header_layout (h : TcpHeader) (opts : List TcpOption) (l r : String)
    (hwf : h.WF) :
    (IsDottedQuad l → IsDottedQuad r →
      ∃ out, GeneratePacket h opts l r = some ⟨some out, none⟩) ∧
    ∀ out, GeneratePacket h opts l r = some ⟨some out, none⟩ →
      ∃ src dst, ipstr2Bytes l = some src ∧ ipstr2Bytes r = some dst ∧
        out.take 20 =
          [h.Src / 256, h.Src % 256, h.Dst / 256, h.Dst % 256,
            h.Seq / 2 ^ 24, h.Seq / 2 ^ 16 % 256, h.Seq / 2 ^ 8 % 256, h.Seq % 256,
            h.Ack / 2 ^ 24, h.Ack / 2 ^ 16 % 256, h.Ack / 2 ^ 8 % 256, h.Ack % 256,
            h.Flags / 256, h.Flags % 256, h.Window / 256, h.Window % 256,
            checkSum (writePass h opts) src dst / 256,
            checkSum (writePass h opts) src dst % 256,
            h.UPointer / 256, h.UPointer % 256] ∧
        decodeHeader (out.take 20)
          = { h with ChkSum := checkSum (writePass h opts) src dst } := by
  refine ⟨GeneratePacket_dotted_returns h opts, ?_⟩
  intro out hgp
  obtain ⟨src, dst, -, -, hsrc, hdst, rfl⟩ := GeneratePacket_returns hgp
  have hwf2 : TcpHeader.WF { h with ChkSum := checkSum (writePass h opts) src dst } := by
    obtain ⟨h1, h2, h3, h4, h5, h6, h7, h8⟩ := hwf
    exact ⟨h1, h2, h3, h4, h5, h6, checkSum_lt _ _ _, h8⟩
  refine ⟨src, dst, hsrc, hdst, ?_, ?_⟩
  · rw [take20_writePass, writeHeader_layout _ hwf2]
  · rw [take20_writePass, decodeHeader_writeHeader _ hwf2]

theorem generatePacket_header_layout_witness :
    sampleHeader.WF ∧
    GeneratePacket sampleHeader sampleOptions "10.0.0.1" "10.0.0.2"
      = some ⟨some sampleOutput, none⟩ ∧
    sampleOutput.take 20
      = [48, 57, 0, 80, 0, 0, 0, 7, 0, 0, 0, 0, 128, 2, 4, 0, 0x2f, 0x8c, 0, 0] ∧
    decodeHeader (sampleOutput.take 20) = ⟨12345, 80, 7, 0, 0x8002, 1024, 0x2f8c, 0⟩ := by
  have hgp : GeneratePacket sampleHeader sampleOptions "10.0.0.1" "10.0.0.2"
      = some ⟨some sampleOutput, none⟩ := by decide
  obtain ⟨src, dst, hs, hd, ht, hdec⟩ :=
    (generatePacket_header_layout sampleHeader sampleOptions "10.0.0.1" "10.0.0.2"
      (by decide)).2 sampleOutput hgp
  have e1 : ipstr2Bytes "10.0.0.1" = some ⟨10, 0, 0, 1⟩ := by decide
  have e2 : ipstr2Bytes "10.0.0.2" = some ⟨10, 0, 0, 2⟩ := by decide
  rw [e1] at hs
  rw [e2] at hd
  cases hs
  cases hd
  have hc : checkSum (writePass sampleHeader sampleOptions) ⟨10, 0, 0, 1⟩ ⟨10, 0, 0, 2⟩
      = 0x2f8c := by decide
  rw [hc] at hdec
  exact ⟨by decide, hgp, by decide, hdec⟩

/-- Claim C5. Options keep the order of the caller: for every header and every option list
`[o1, ..., on]`, `GeneratePacket` returns bytes on every pair of valid dotted-decimal IPv4
addresses, and whenever it returns bytes `out`, the bytes of `out` from offset 20 on are
`enc(o1) ++ ... ++ enc(on)` followed by six zero bytes, with
`enc(o) = [o.Kind, o.Length] ++ o.Data`. -/
theorem generatePacket_options_in_order (h : TcpHeader) (opts : List TcpOption)
    (l r : String) :
    (IsDottedQuad l → IsDottedQuad r →
      ∃ out, GeneratePacket h opts l r = some ⟨some out, none⟩) ∧
    ∀ out, GeneratePacket h opts l r = some ⟨some out, none⟩ →
      out.drop 20 = (opts.map (fun o => [o.Kind, o.Length] ++ o.Data)).flatten
        ++ [0, 0, 0, 0, 0, 0] := by
  refine ⟨GeneratePacket_dotted_returns h opts, ?_⟩
  intro out hgp
  obtain ⟨src, dst, -, -, -, -, rfl⟩ := GeneratePacket_returns hgp
  rw [drop20_writePass, writeOptions_eq_encOptions]
  rfl

theorem generatePacket_options_in_order_witness :
    GeneratePacket sampleHeader sampleOptions "10.0.0.1" "10.0.0.2"
      = some ⟨some sampleOutput, none⟩ ∧
    sampleOutput.drop 20 = [2, 4, 5, 0xb4] ++ [0, 0] ++ [0, 0, 0, 0, 0, 0] := by
  have hgp : GeneratePacket sampleHeader sampleOptions "10.0.0.1" "10.0.0.2"
      = some ⟨some sampleOutput, none⟩ := by decide
  have hd := (generatePacket_options_in_order sampleHeader sampleOptions "10.0.0.1"
    "10.0.0.2").2 sampleOutput hgp
  exact ⟨hgp, hd⟩

/-- Claim C6. Output length: for every header and option list, `GeneratePacket` returns
bytes on every pair of valid dotted-decimal IPv4 addresses, and whenever it returns bytes
`out`, `out` has `20 + (sum over the options of 2 + len(Data)) + 6` bytes, whatever the
`Length` fields say. -/
theorem generatePacket_length (h : TcpHeader) (opts : List TcpOption) (l r : String) :
    (IsDottedQuad l → IsDottedQuad r →
      ∃ out, GeneratePacket h opts l r = some ⟨some out, none⟩) ∧
    ∀ out, GeneratePacket h opts l r = some ⟨some out, none⟩ →
      out.length = 20 + (opts.map (fun o => 2 + o.Data.length)).sum + 6 := by
  refine ⟨GeneratePacket_dotted_returns h opts, ?_⟩
  intro out hgp
  obtain ⟨src, dst, -, -, -, -, rfl⟩ := GeneratePacket_returns hgp
  rw [writePass_length, writeOptions_eq_encOptions, length_encOptions]

theorem generatePacket_length_witness :
    GeneratePacket sampleHeader sampleOptions "10.0.0.1" "10.0.0.2"
      = some ⟨some sampleOutput, none⟩ ∧
    sampleOutput.length = 20 + (4 + 2) + 6 := by
  have hgp : GeneratePacket sampleHeader sampleOptions "10.0.0.1" "10.0.0.2"
      = some ⟨some sampleOutput, none⟩ := by decide
  have hd := (generatePacket_length sampleHeader sampleOptions "10.0.0.1"
    "10.0.0.2").2 sampleOutput hgp
  exact ⟨hgp, hd⟩

/-- Claim C7. `GeneratePacket` fails exactly on invalid addresses: it returns an error, with
nil bytes, if and only if `isValidIP l` or `isValidIP r` is false; it never returns bytes
together with an error. -/
theorem generatePacket_error_iff (h : TcpHeader) (opts : List TcpOption) (l r : String) :
    ((∃ ret, GeneratePacket h opts l r = some ret ∧ ret.err ≠ none)
        ↔ (isValidIP l = false ∨ isValidIP r = false)) ∧
    ((∃ msg, GeneratePacket h opts l r = some ⟨none, some msg⟩)
        ↔ (isValidIP l = false ∨ isValidIP r = false)) ∧
    ¬ ∃ bytes msg, GeneratePacket h opts l r = some ⟨some bytes, some msg⟩ := by
  unfold GeneratePacket
  cases hl : isValidIP l <;> cases hr : isValidIP r <;> simp
  split <;> simp

/-- Claim C8, evaluated where it fails: `isValidIP` accepts the IPv6 text `::1`, which has
no dot, so `strings.Split` gives one piece, `ipstr2Bytes` panics at `s[1]`, and
`GeneratePacket` panics instead of returning bytes or an error. -/
theorem generatePacket_ipv6_panics :
    isValidIP "::1" = true ∧ ipstr2Bytes "::1" = none ∧
      GeneratePacket sampleHeader sampleOptions "::1" "::1" = none ∧
      GeneratePacket sampleHeader sampleOptions "10.0.0.1" "2001:db8::1" = none := by
  decide

/-- Claim C9. Address parsing is exact on valid input: for `a`, `b`, `c`, `d` in 0..255
written in decimal without leading zeros, `ipstr2Bytes "a.b.c.d"` returns the four bytes
`a`, `b`, `c`, `d` in that order. -/
theorem ipstr2Bytes_exact (a b c d : Nat) (ha : a < 256) (hb : b < 256) (hc : c < 256)
    (hd : d < 256) :
    ipstr2Bytes (dottedQuad a b c d) = some ⟨a, b, c, d⟩ ∧
      (ipstr2Bytes (dottedQuad a b c d)).map Array4.toList = some [a, b, c, d] := by
  rw [ipstr2Bytes_dottedQuad ha hb hc hd]
  exact ⟨rfl, rfl⟩

theorem ipstr2Bytes_exact_witness :
    dottedQuad 192 168 0 255 = "192.168.0.255" ∧
    ipstr2Bytes (dottedQuad 192 168 0 255) = some ⟨192, 168, 0, 255⟩ ∧
      (ipstr2Bytes (dottedQuad 192 168 0 255)).map Array4.toList = some [192, 168, 0, 255] :=
  ⟨by decide, ipstr2Bytes_exact 192 168 0 255 (by decide) (by decide) (by decide) (by decide)⟩

/-- Claim C10. `isValidIP` is false for the empty text, `1.2.3`, `999.1.1.1` and
`abc.def.gh.i`, so `GeneratePacket` returns an error, with nil bytes, when either address
is one of them. -/
theorem isValidIP_rejects :
    isValidIP "" = false ∧ isValidIP "1.2.3" = false ∧ isValidIP "999.1.1.1" = false ∧
      isValidIP "abc.def.gh.i" = false ∧
      ∀ bad ∈ ["", "1.2.3", "999.1.1.1", "abc.def.gh.i"],
        ∀ (h : TcpHeader) (opts : List TcpOption) (other : String),
          (∃ msg, GeneratePacket h opts bad other = some ⟨none, some msg⟩) ∧
          (∃ msg, GeneratePacket h opts other bad = some ⟨none, some msg⟩) := by
  refine ⟨by decide, by decide, by decide, by decide, ?_⟩
  intro bad hbad h opts other
  have hv : isValidIP bad = false := by
    simp only [List.mem_cons, List.mem_singleton, List.not_mem_nil, or_false] at hbad
    rcases hbad with rfl | rfl | rfl | rfl <;> decide
  constructor
  · exact ⟨"ip addresse(s) " ++ bad ++ " or " ++ other ++ " are invalid",
      by simp [GeneratePacket, hv]⟩
  · exact ⟨"ip addresse(s) " ++ other ++ " or " ++ bad ++ " are invalid",
      by simp [GeneratePacket, hv]⟩

/-- Claim C11. The shape of the output of `GenerateSyn`: for source and destination ports
and a sequence number in the range of their types, `GenerateSyn` returns bytes on every
pair of valid dotted-decimal IPv4 addresses, and whenever it returns bytes `out`, `out` has
exactly 32 bytes, `out[0:2]` is the source port big-endian, `out[2:4]` the destination port
big-endian and `out[12:14]` is `0x80 0x02`, the flags field `0x8002`. -/
theorem generateSyn_shape (seq sp dp : Nat) (l r : String)
    (hseq : seq < 2 ^ 32) (hsp : sp < 2 ^ 16) (hdp : dp < 2 ^ 16) :
    (IsDottedQuad l → IsDottedQuad r →
      ∃ out, GenerateSyn seq l r sp dp = some ⟨some out, none⟩) ∧
    ∀ out, GenerateSyn seq l r sp dp = some ⟨some out, none⟩ →
      out.length = 32 ∧
      slice out 0 2 = [sp / 256, sp % 256] ∧ be16At out 0 = sp ∧
      slice out 2 4 = [dp / 256, dp % 256] ∧ be16At out 2 = dp ∧
      slice out 12 14 = [0x80, 0x02] ∧ be16At out 12 = 0x8002 := by
  refine ⟨GenerateSyn_dotted_returns seq sp dp, ?_⟩
  intro out hgs
  obtain ⟨c, -, rfl⟩ := GenerateSyn_layout hseq hsp hdp hgs
  refine ⟨rfl, rfl, ?_, rfl, ?_, rfl, ?_⟩
  · simp only [be16At, List.getD_cons_zero, List.getD_cons_succ]
    omega
  · simp only [be16At, List.getD_cons_zero, List.getD_cons_succ]
    omega
  · simp only [be16At, List.getD_cons_zero, List.getD_cons_succ]

theorem generateSyn_shape_witness :
    GenerateSyn 7 "10.0.0.1" "10.0.0.2" 12345 80 = some ⟨some sampleOutput, none⟩ ∧
    sampleOutput.length = 32 ∧
    slice sampleOutput 0 2 = [48, 57] ∧ be16At sampleOutput 0 = 12345 ∧
    slice sampleOutput 2 4 = [0, 80] ∧ be16At sampleOutput 2 = 80 ∧
    slice sampleOutput 12 14 = [0x80, 0x02] ∧ be16At sampleOutput 12 = 0x8002 := by
  have hgs : GenerateSyn 7 "10.0.0.1" "10.0.0.2" 12345 80 = some ⟨some sampleOutput, none⟩ := by
    decide
  exact ⟨hgs, (generateSyn_shape 7 12345 80 "10.0.0.1" "10.0.0.2" (by norm_num)
    (by norm_num) (by norm_num)).2 sampleOutput hgs⟩

/-- Claim C12. The fixed fields of the output of `GenerateSyn`: for ports and a sequence
number `seq` in the range of their types, `GenerateSyn` returns bytes on every pair of
valid dotted-decimal IPv4 addresses, and whenever it returns bytes `out`, `out[4:8]` is
`seq` big-endian, `out[8:12]` is zero, `out[14:16]` is `0x04 0x00` (window 1024),
`out[18:20]` is zero, `out[20:24]` is `0x02 0x04 0x05 0xb4`, and the rest of `out` is the
end-of-option-list option, written as its kind 0 and a zero length byte, and six zero
bytes. -/
theorem generateSyn_fixed_fields (seq sp dp : Nat) (l r : String)
    (hseq : seq < 2 ^ 32) (hsp : sp < 2 ^ 16) (hdp : dp < 2 ^ 16) :
    (IsDottedQuad l → IsDottedQuad r →
      ∃ out, GenerateSyn seq l r sp dp = some ⟨some out, none⟩) ∧
    ∀ out, GenerateSyn seq l r sp dp = some ⟨some out, none⟩ →
      slice out 4 8 = [seq / 2 ^ 24, seq / 2 ^ 16 % 256, seq / 2 ^ 8 % 256, seq % 256] ∧
      be32At out 4 = seq ∧
      slice out 8 12 = [0, 0, 0, 0] ∧
      slice out 14 16 = [0x04, 0x00] ∧ be16At out 14 = 1024 ∧
      slice out 18 20 = [0, 0] ∧
      slice out 20 24 = [0x02, 0x04, 0x05, 0xb4] ∧ be16At out 22 = 1460 ∧
      out.drop 24 = [0, 0] ++ [0, 0, 0, 0, 0, 0] := by
  refine ⟨GenerateSyn_dotted_returns seq sp dp, ?_⟩
  intro out hgs
  obtain ⟨c, -, rfl⟩ := GenerateSyn_layout hseq hsp hdp hgs
  refine ⟨rfl, ?_, rfl, rfl, ?_, rfl, rfl, ?_, rfl⟩
  · simp only [be32At, List.getD_cons_zero, List.getD_cons_succ]
    omega
  · simp only [be16At, List.getD_cons_zero, List.getD_cons_succ]
  · simp only [be16At, List.getD_cons_zero, List.getD_cons_succ]

theorem generateSyn_fixed_fields_witness :
    GenerateSyn 7 "10.0.0.1" "10.0.0.2" 12345 80 = some ⟨some sampleOutput, none⟩ ∧
    slice sampleOutput 4 8 = [0, 0, 0, 7] ∧
    be32At sampleOutput 4 = 7 ∧
    slice sampleOutput 8 12 = [0, 0, 0, 0] ∧
    slice sampleOutput 14 16 = [0x04, 0x00] ∧ be16At sampleOutput 14 = 1024 ∧
    slice sampleOutput 18 20 = [0, 0] ∧
    slice sampleOutput 20 24 = [0x02, 0x04, 0x05, 0xb4] ∧ be16At sampleOutput 22 = 1460 ∧
    sampleOutput.drop 24 = [0, 0] ++ [0, 0, 0, 0, 0, 0] := by
  have hgs : GenerateSyn 7 "10.0.0.1" "10.0.0.2" 12345 80 = some ⟨some sampleOutput, none⟩ := by
    decide
  exact ⟨hgs, (generateSyn_fixed_fields 7 12345 80 "10.0.0.1" "10.0.0.2" (by norm_num)
    (by norm_num) (by norm_num)).2 sampleOutput hgs⟩

/-- Claim C13, as stated, fails: the no-op option given with its kind only (`Length` 0,
no `Data`) puts two bytes, `0x01 0x00`, into the output of `GeneratePacket`, which has 28
bytes and not 27. -/
theorem single_byte_option_takes_two_bytes :
    GeneratePacket sampleHeader [⟨1, 0, []⟩] "10.0.0.1" "10.0.0.2"
      = some ⟨some [48, 57, 0, 80, 0, 0, 0, 7, 0, 0, 0, 0, 128, 2, 4, 0, 0x36, 0x48, 0, 0,
          1, 0, 0, 0, 0, 0, 0, 0], none⟩ ∧
    ¬ ∃ out, GeneratePacket sampleHeader [⟨1, 0, []⟩] "10.0.0.1" "10.0.0.2"
        = some ⟨some out, none⟩ ∧ out.drop 20 = [1] ++ [0, 0, 0, 0, 0, 0] := by
  have hgp : GeneratePacket sampleHeader [⟨1, 0, []⟩] "10.0.0.1" "10.0.0.2"
      = some ⟨some [48, 57, 0, 80, 0, 0, 0, 7, 0, 0, 0, 0, 128, 2, 4, 0, 0x36, 0x48, 0, 0,
          1, 0, 0, 0, 0, 0, 0, 0], none⟩ := by decide
  refine ⟨hgp, ?_⟩
  rintro ⟨out, hout, hdrop⟩
  rw [hgp] at hout
  simp only [Option.some.injEq, Returned.mk.injEq, and_true] at hout
  subst hout
  exact absurd hdrop (by decide)

/-- Claim C13, amended. An option given with a kind only (`Length` 0 and no `Data`)
contributes exactly two bytes to the output of `GeneratePacket`, its kind and a zero length
byte: for every header, every kind `k`, all options `pre` before it and `post` after it,
`GeneratePacket` returns bytes on every pair of valid dotted-decimal IPv4 addresses, and
whenever it returns bytes `out`, the bytes of `out` from offset 20 on are the encoding of
`pre`, then `k` and `0`, then the encoding of `post`, then six zero bytes. -/
theorem kind_only_option_two_bytes (h : TcpHeader) (pre post : List TcpOption) (k : Nat)
    (l r : String) :
    (IsDottedQuad l → IsDottedQuad r →
      ∃ out, GeneratePacket h (pre ++ [⟨k, 0, []⟩] ++ post) l r = some ⟨some out, none⟩) ∧
    ∀ out, GeneratePacket h (pre ++ [⟨k, 0, []⟩] ++ post) l r = some ⟨some out, none⟩ →
      out.drop 20 = encOptions pre ++ [k, 0] ++ encOptions post ++ [0, 0, 0, 0, 0, 0] ∧
      out.length = 20 + (encOptions pre).length + 2 + (encOptions post).length + 6 := by
  refine ⟨GeneratePacket_dotted_returns h _, ?_⟩
  intro out hgp
  obtain ⟨src, dst, -, -, -, -, rfl⟩ := GeneratePacket_returns hgp
  have hw : writeOptions (pre ++ [⟨k, 0, []⟩] ++ post)
      = encOptions pre ++ [k, 0] ++ encOptions post := by
    rw [writeOptions_append, writeOptions_append, writeOptions_eq_encOptions pre,
      writeOptions_eq_encOptions post]
    rfl
  refine ⟨?_, ?_⟩
  · rw [drop20_writePass, hw]
  · rw [writePass_length, hw]
    simp only [List.length_append, List.length_cons, List.length_nil]
    omega

/-- Claim C14, as stated, fails: in the output of `GenerateSyn` for the addresses
`10.0.0.1`, `10.0.0.2` and the ports 12345 and 80, the top 4 bits of the flags field at
`out[12:14]` are 8, not 5. -/
theorem generateSyn_data_offset_not_five :
    GenerateSyn 7 "10.0.0.1" "10.0.0.2" 12345 80 = some ⟨some sampleOutput, none⟩ ∧
    be16At sampleOutput 12 = 0x8002 ∧
    be16At sampleOutput 12 >>> 12 = 8 ∧
    be16At sampleOutput 12 >>> 12 ≠ 5 := by
  decide

/-- Claim C14, amended. In every output of `GenerateSyn` the data-offset bits (the top 4
bits of the 16-bit flags field at `out[12:14]`) encode 8 words, which is the length of the
32-byte output; the SYN bit (`0x0002`) is set and none of the other 11 low bits is set. -/
theorem generateSyn_data_offset (seq sp dp : Nat) (l r : String)
    (hseq : seq < 2 ^ 32) (hsp : sp < 2 ^ 16) (hdp : dp < 2 ^ 16) :
    (IsDottedQuad l → IsDottedQuad r →
      ∃ out, GenerateSyn seq l r sp dp = some ⟨some out, none⟩) ∧
    ∀ out, GenerateSyn seq l r sp dp = some ⟨some out, none⟩ →
      be16At out 12 >>> 12 = 8 ∧ out.length = 4 * 8 ∧
      be16At out 12 &&& 0x0002 = 0x0002 ∧
      be16At out 12 &&& 0x0fff = 0x0002 := by
  refine ⟨GenerateSyn_dotted_returns seq sp dp, ?_⟩
  intro out hgs
  obtain ⟨c, -, rfl⟩ := GenerateSyn_layout hseq hsp hdp hgs
  have hflags : be16At [sp / 256, sp % 256, dp / 256, dp % 256,
      seq / 2 ^ 24, seq / 2 ^ 16 % 256, seq / 2 ^ 8 % 256, seq % 256,
      0, 0, 0, 0, 0x80, 0x02, 0x04, 0x00, c / 256, c % 256, 0, 0,
      0x02, 0x04, 0x05, 0xb4, 0, 0, 0, 0, 0, 0, 0, 0] 12 = 0x8002 := by
    simp only [be16At, List.getD_cons_zero, List.getD_cons_succ]
  rw [hflags]
  exact ⟨by decide, rfl, by decide, by decide⟩

theorem generateSyn_data_offset_witness :
    GenerateSyn 7 "10.0.0.1" "10.0.0.2" 12345 80 = some ⟨some sampleOutput, none⟩ ∧
    be16At sampleOutput 12 >>> 12 = 8 ∧ sampleOutput.length = 4 * 8 ∧
    be16At sampleOutput 12 &&& 0x0002 = 0x0002 ∧
    be16At sampleOutput 12 &&& 0x0fff = 0x0002 := by
  have hgs : GenerateSyn 7 "10.0.0.1" "10.0.0.2" 12345 80 = some ⟨some sampleOutput, none⟩ := by
    decide
  exact ⟨hgs, (generateSyn_data_offset 7 12345 80 "10.0.0.1" "10.0.0.2" (by norm_num)
    (by norm_num) (by norm_num)).2 sampleOutput hgs⟩

/-- Claim C15, as stated, fails: with the window-scale option (kind 3, length 3, one
payload byte) the first-pass byte sequence has 29 bytes, an odd number, and
`GeneratePacket` does build the segment from it. -/
theorem first_pass_odd_length :
    (writePass sampleHeader [⟨3, 3, [7]⟩]).length = 29 ∧
    (writePass sampleHeader [⟨3, 3, [7]⟩]).length % 2 = 1 ∧
    GeneratePacket sampleHeader [⟨3, 3, [7]⟩] "10.0.0.1" "10.0.0.2"
      = some ⟨some [48, 57, 0, 80, 0, 0, 0, 7, 0, 0, 0, 0, 128, 2, 4, 0, 0x2d, 0x44, 0, 0,
          3, 3, 7, 0, 0, 0, 0, 0, 0], none⟩ := by
  decide

/-- Claim C15, amended. For every header and every option list the first-pass byte
sequence that `GeneratePacket` hands to `checkSum` has `26 + sum of (2 + len(Data))` bytes,
so its length is even exactly when the payload bytes of the options total an even number;
its last byte is always one of the trailing zero bytes. -/
theorem first_pass_length_parity (h : TcpHeader) (opts : List TcpOption) (l r : String) :
    (writePass h opts).length = 26 + (opts.map (fun o => 2 + o.Data.length)).sum ∧
    (writePass h opts).length % 2 = (opts.map (fun o => o.Data.length)).sum % 2 ∧
    ((writePass h opts).length % 2 = 0 ↔ (opts.map (fun o => o.Data.length)).sum % 2 = 0) ∧
    (writePass h opts).getLast? = some 0 ∧
    ∀ out, GeneratePacket h opts l r = some ⟨some out, none⟩ →
      ∃ src dst, ipstr2Bytes l = some src ∧ ipstr2Bytes r = some dst ∧
        be16At out 16 = checkSum (writePass h opts) src dst := by
  have hlen := writePass_length_sum h opts
  have hsum := sum_map_two_add opts
  have hpar : (writePass h opts).length % 2 = (opts.map (fun o => o.Data.length)).sum % 2 := by
    rw [hlen, hsum]
    omega
  refine ⟨hlen, hpar, by rw [hpar], ?_, fun out hgp => GeneratePacket_embeds_first_pass hgp⟩
  simp [writePass]

/-- Claim C16, as stated, fails: for the header of `sampleHeader` with `ChkSum` set to
`0x1234`, the first-pass bytes hold `0x12 0x34` at offsets 16 and 17, and the output differs
from the output for `ChkSum` 0 (checksum `0x1d58` instead of `0x2f8c`). -/
theorem first_pass_keeps_caller_checksum :
    slice (writePass ⟨12345, 80, 7, 0, 0x8002, 1024, 0x1234, 0⟩ sampleOptions) 16 18
      = [0x12, 0x34] ∧
    GeneratePacket ⟨12345, 80, 7, 0, 0x8002, 1024, 0x1234, 0⟩ sampleOptions
        "10.0.0.1" "10.0.0.2"
      = some ⟨some [48, 57, 0, 80, 0, 0, 0, 7, 0, 0, 0, 0, 128, 2, 4, 0, 0x1d, 0x58, 0, 0,
          2, 4, 5, 0xb4, 0, 0, 0, 0, 0, 0, 0, 0], none⟩ ∧
    GeneratePacket sampleHeader sampleOptions "10.0.0.1" "10.0.0.2"
      = some ⟨some sampleOutput, none⟩ ∧
    GeneratePacket ⟨12345, 80, 7, 0, 0x8002, 1024, 0x1234, 0⟩ sampleOptions
        "10.0.0.1" "10.0.0.2"
      ≠ GeneratePacket sampleHeader sampleOptions "10.0.0.1" "10.0.0.2" := by
  decide

/-- Claim C16, amended. For every header `h` the bytes over which `GeneratePacket` computes
the checksum hold the `ChkSum` of the caller, big-endian, at offsets 16 and 17: they are
zero there when `h.ChkSum` is 0 and, for a 16-bit `ChkSum`, only then. -/
theorem first_pass_checksum_field (h : TcpHeader) (opts : List TcpOption) (l r : String) :
    slice (writePass h opts) 16 18 = [(h.ChkSum >>> 8) % 256, h.ChkSum % 256] ∧
    (h.ChkSum = 0 → slice (writePass h opts) 16 18 = [0, 0]) ∧
    (h.ChkSum < 2 ^ 16 → slice (writePass h opts) 16 18 = [0, 0] → h.ChkSum = 0) ∧
    ∀ out, GeneratePacket h opts l r = some ⟨some out, none⟩ →
      ∃ src dst, ipstr2Bytes l = some src ∧ ipstr2Bytes r = some dst ∧
        be16At out 16 = checkSum (writePass h opts) src dst := by
  have hs := slice_16_18_writePass h opts
  refine ⟨hs, ?_, ?_, fun out hgp => GeneratePacket_embeds_first_pass hgp⟩
  · intro h0
    rw [hs, h0]
    rfl
  · intro hlt hz
    rw [hs, Nat.shiftRight_eq_div_pow] at hz
    simp only [List.cons.injEq, and_true] at hz
    omega

/-- Claim C17. Two folds are enough: for every 32-bit accumulator `x`, with
`y = (x >> 16) + (x & 0xffff)` and `z = y + (y >> 16)`, the code's two folding steps give
`z` without wrap-around, and the low 16 bits of `z` are the fully folded ones-complement
value of `x`: the end-around-carry sum of the two halves of `x`, congruent to `x` modulo
65535 and zero only when `x` is zero. -/
theorem two_folds_enough (x : Nat) (hx : x < 2 ^ 32) :
    fold x = foldZ x ∧
    foldZ x % 2 ^ 16 = onesAdd (x >>> 16) (x &&& 0xffff) ∧
    (foldZ x % 2 ^ 16) % 65535 = x % 65535 ∧
    (foldZ x % 2 ^ 16 = 0 ↔ x = 0) := by
  have hz : fold x = foldZ x := fold_no_wrap x hx
  have h1 : x &&& 0xffff = x % 65536 := Nat.and_pow_two_sub_one_eq_mod x 16
  have h2 : x >>> 16 = x / 65536 := Nat.shiftRight_eq_div_pow x 16
  obtain ⟨-, a2, a3⟩ := fold_low_spec x hx
  rw [← hz, h1, h2]
  exact ⟨rfl, fold_low_eq_onesAdd x hx, a2, a3⟩

theorem two_folds_enough_witness :
    (0x1ffff : Nat) < 2 ^ 32 ∧ foldY 0x1ffff = 0x10000 ∧ foldZ 0x1ffff = 0x10001 ∧
    fold 0x1ffff = foldZ 0x1ffff ∧
    foldZ 0x1ffff % 2 ^ 16 = onesAdd (0x1ffff >>> 16) (0x1ffff &&& 0xffff) ∧
    (foldZ 0x1ffff % 2 ^ 16) % 65535 = 0x1ffff % 65535 ∧
    (foldZ 0x1ffff % 2 ^ 16 = 0 ↔ 0x1ffff = 0) :=
  ⟨by norm_num, by decide, by decide, two_folds_enough 0x1ffff (by norm_num)⟩

/-- Claim C19. The last byte of an odd-length input is ignored, not zero-padded: for every
`src`, `dst`, every even-length `data` and all `x`, `y`,
`checkSum (data ++ [x]) src dst = checkSum (data ++ [y]) src dst`. -/
theorem checkSum_ignores_last_byte (data : List Nat) (src dst : Array4) (x y : Nat)
    (heven : data.length % 2 = 0) :
    checkSum (data ++ [x]) src dst = checkSum (data ++ [y]) src dst := by
  have hskip : ∀ b : Nat, sumLoop ([src.b0, src.b1, src.b2, src.b3, dst.b0, dst.b1, dst.b2,
      dst.b3, 0, 6, 0, (data.length + 1) % 256] ++ (data ++ [b])) 0
      = sumLoop ([src.b0, src.b1, src.b2, src.b3, dst.b0, dst.b1, dst.b2,
      dst.b3, 0, 6, 0, (data.length + 1) % 256] ++ data) 0 := by
    intro b
    rw [← List.append_assoc, sumLoop_append_even [b] 0
      (by simp only [List.length_append, List.length_cons, List.length_nil]; omega)]
    rfl
  unfold checkSum
  simp only [List.length_append, List.length_cons, List.length_nil, Nat.zero_add]
  rw [hskip x, hskip y]

theorem checkSum_ignores_last_byte_witness :
    (writePass sampleHeader sampleOptions).length % 2 = 0 ∧
    checkSum (writePass sampleHeader sampleOptions ++ [0xab]) ⟨10, 0, 0, 1⟩ ⟨10, 0, 0, 2⟩
      = checkSum (writePass sampleHeader sampleOptions ++ [0]) ⟨10, 0, 0, 1⟩ ⟨10, 0, 0, 2⟩ :=
  ⟨by decide, checkSum_ignores_last_byte (writePass sampleHeader sampleOptions) ⟨10, 0, 0, 1⟩
    ⟨10, 0, 0, 2⟩ 0xab 0 (by decide)⟩

/-- Claim C20. Agreement with the standard TCP checksum stops at 256 bytes: for 4-byte
`src` and `dst` and an even-length `data` of at most 65535 bytes, `checkSum data src dst`
equals the checksum computed the same way with the standard pseudo-header tail
`[0, 6, len(data) >> 8, len(data) & 0xff]` if and only if `len(data) < 256`. -/
theorem checkSum_eq_standard_iff (data : List Nat) (src dst : Array4)
    (hs : src.WF) (ht : dst.WF) (hd : AllBytes data) (heven : data.length % 2 = 0)
    (hlen : data.length ≤ 65535) :
    checkSum data src dst = checkSumStd data src dst ↔ data.length < 256 := by
  have _ := heven
  have hp := pseudoSum_lt data.length hs ht
  have hw := wordSum_le data hd
  have hw2 : 65535 * (data.length / 2) ≤ 65535 * 32767 := Nat.mul_le_mul_left _ (by omega)
  have hq : data.length / 256 ≤ 255 := by omega
  rw [checkSum_arith data src dst hd hs ht, checkSumStd_arith data src dst hd hs ht hlen]
  obtain ⟨S, hS⟩ : ∃ S, S = pseudoSum data.length src dst + wordSum data := ⟨_, rfl⟩
  have hS2 : pseudoSum data.length src dst + 256 * (data.length / 256) + wordSum data
      = S + 256 * (data.length / 256) := by omega
  rw [hS2, ← hS]
  have hlt1 : S < 2 ^ 32 := by omega
  have hlt2 : S + 256 * (data.length / 256) < 2 ^ 32 := by omega
  rw [Nat.mod_eq_of_lt hlt1, Nat.mod_eq_of_lt hlt2]
  have hiff := fold_low_eq_iff hlt1 hlt2 (by omega) (by omega)
  have hf1 : fold S % 2 ^ 16 < 65536 := Nat.mod_lt _ (by norm_num)
  have hf2 : fold (S + 256 * (data.length / 256)) % 2 ^ 16 < 65536 :=
    Nat.mod_lt _ (by norm_num)
  generalize fold S % 2 ^ 16 = f at hiff hf1 ⊢
  generalize fold (S + 256 * (data.length / 256)) % 2 ^ 16 = g at hiff hf2 ⊢
  constructor
  · intro h
    have hfg : f = g := by omega
    have hmod := hiff.mp hfg
    omega
  · intro h
    have hq0 : data.length / 256 = 0 := by omega
    have hfg : f = g := hiff.mpr (by rw [hq0]; rfl)
    rw [hfg]

set_option maxRecDepth 100000 in
theorem checkSum_eq_standard_iff_witness :
    (checkSum (List.replicate 256 0) ⟨10, 0, 0, 1⟩ ⟨10, 0, 0, 2⟩
        = checkSumStd (List.replicate 256 0) ⟨10, 0, 0, 1⟩ ⟨10, 0, 0, 2⟩
      ↔ (List.replicate 256 0).length < 256) ∧
    checkSum (List.replicate 256 0) ⟨10, 0, 0, 1⟩ ⟨10, 0, 0, 2⟩ = 0xebf6 ∧
    checkSumStd (List.replicate 256 0) ⟨10, 0, 0, 1⟩ ⟨10, 0, 0, 2⟩ = 0xeaf6 :=
  ⟨checkSum_eq_standard_iff (List.replicate 256 0) ⟨10, 0, 0, 1⟩ ⟨10, 0, 0, 2⟩ (by decide)
    (by decide) (by decide) (by decide) (by decide), by decide, by decide⟩

/-- Claim C18, as stated, fails: a text with three segments makes `ipstr2Bytes` panic
(index out of range), as does the empty text; and the segment `10000000000000000000`, a
number beyond the `int64` range whose low 8 bits are 0, gives the byte 255. -/
theorem ipstr2Bytes_malformed_fails :
    ipstr2Bytes "1.2.3" = none ∧ ipstr2Bytes "" = none ∧
    ipstr2Bytes "10000000000000000000.0.0.0" = some ⟨255, 0, 0, 0⟩ ∧
    10000000000000000000 % 256 = 0 := by
  decide

/-- Claim C18, amended. For every text with at least four `.`-separated segments (at least
three dots), `ipstr2Bytes` returns 4 bytes, one for each of the first four segments, as
`segmentByte` describes: a decimal number in the `int64` range, with an optional sign,
gives its low 8 bits; a number beyond that range, or leading digits beyond the `uint64`
range, give 255, or 0 after a `-`; every other segment gives 0. -/
theorem ipstr2Bytes_four_segments (addr : String) (h : 4 ≤ (splitDots addr.data).length) :
    (splitDots addr.data).length = addr.data.count '.' + 1 ∧
    ∃ s0 s1 s2 s3 rest, splitDots addr.data = s0 :: s1 :: s2 :: s3 :: rest ∧
      ipstr2Bytes addr
        = some ⟨segmentByte s0, segmentByte s1, segmentByte s2, segmentByte s3⟩ := by
  refine ⟨splitDots_length _, ?_⟩
  unfold ipstr2Bytes
  match hsp : splitDots addr.data, h with
  | s0 :: s1 :: s2 :: s3 :: rest, _ =>
    exact ⟨s0, s1, s2, s3, rest, rfl,
      by simp only [toByte_atoi]⟩
  | [], h => simp at h
  | [_], h => simp at h
  | [_, _], h => simp at h
  | [_, _, _], h => simp at h

theorem ipstr2Bytes_four_segments_witness :
    4 ≤ (splitDots "-1.256.x.99999999999999999999.7".data).length ∧
    ((splitDots "-1.256.x.99999999999999999999.7".data).length
        = "-1.256.x.99999999999999999999.7".data.count '.' + 1 ∧
      ∃ s0 s1 s2 s3 rest,
        splitDots "-1.256.x.99999999999999999999.7".data = s0 :: s1 :: s2 :: s3 :: rest ∧
        ipstr2Bytes "-1.256.x.99999999999999999999.7"
          = some ⟨segmentByte s0, segmentByte s1, segmentByte s2, segmentByte s3⟩) ∧
    ipstr2Bytes "-1.256.x.99999999999999999999.7" = some ⟨255, 0, 0, 255⟩ ∧
    segmentByte "-1".data = 255 ∧ segmentByte "256".data = 0 ∧ segmentByte "x".data = 0 ∧
    segmentByte "99999999999999999999".data = 255 ∧ segmentByte "999".data = 231 ∧
    segmentByte "99999999999999999999x".data = 255 ∧
    segmentByte "-99999999999999999999".data = 0 ∧ segmentByte "+7".data = 7 :=
  ⟨by decide, ipstr2Bytes_four_segments "-1.256.x.99999999999999999999.7" (by decide),
    by decide, by decide, by decide, by decide, by decide, by decide, by decide, by decide,
    by decide⟩

end Packetizer
